import Mathlib

/-!
# Verification of the relly storage core

A shallow embedding of the storage core of the `relly` database engine:
the memcmp-preserving codec (`src/memcmpable.rs`), the tuple codec
(`src/tuple.rs`), binary search (`src/bsearch.rs`), the slotted page
(`src/slotted.rs`), the B+Tree node operations (`src/btree/leaf.rs`,
`src/btree/branch.rs`), the B+Tree itself (`src/btree.rs`) and the buffer
pool (`src/buffer.rs`).

Bytes are modelled as `Nat` values (they are always < 256 in the program;
the codec moves payload bytes without arithmetic on them, so no
wrap-around can occur).  Byte strings are `List Nat`.  Fallible or
panicking operations return `Option`/`Except`.
-/

namespace Relly

/-! ## Memcmp-preserving codec (`src/memcmpable.rs`)

`ESCAPE_LENGTH = 9`.  Each encoded group is 8 payload bytes plus one
terminator byte. -/

namespace memcmpable

/-- `memcmpable::encoded_size`:
`(len + (ESCAPE_LENGTH - 1)) / (ESCAPE_LENGTH - 1) * ESCAPE_LENGTH`. -/
def encoded_size (len : Nat) : Nat :=
  (len + (9 - 1)) / (9 - 1) * 9

/-- `memcmpable::encode`: the encoder loop.  Each iteration copies
`copy_len = min 8 (length src)` bytes of the source.  If at least one
byte of source remains after the copy (first arm: 9 or more bytes of
input), the continuation terminator `9` is appended and the loop
continues; otherwise (8 or fewer bytes of input) the group is padded
with zeros to 8 bytes and `copy_len` is appended as the terminator. -/
def encode : List Nat → List Nat
  | b0 :: b1 :: b2 :: b3 :: b4 :: b5 :: b6 :: b7 :: b8 :: rest =>
    b0 :: b1 :: b2 :: b3 :: b4 :: b5 :: b6 :: b7 :: 9 :: encode (b8 :: rest)
  | s => s ++ List.replicate (8 - s.length) 0 ++ [s.length]

/-- `memcmpable::decode`: reads the terminator byte at index 8 of the
remaining input, copies `min 8 extra` payload bytes, advances the input by
9 bytes, and repeats while the terminator was the continuation marker `9`.
Returns the decoded element together with the not-yet-consumed input.
`none` models the panic of an out-of-bounds slice access, which happens
exactly when fewer than 9 bytes of input remain (second arm). -/
def decode : List Nat → Option (List Nat × List Nat)
  | b0 :: b1 :: b2 :: b3 :: b4 :: b5 :: b6 :: b7 :: extra :: rest =>
    let payload := List.take (min 8 extra) [b0, b1, b2, b3, b4, b5, b6, b7]
    if extra < 9 then
      some (payload, rest)
    else
      match decode rest with
      | none => none
      | some (tail, rest2) => some (payload ++ tail, rest2)
  | _ => none

/-- On 8 or fewer input bytes, `encode` emits one zero-padded group
terminated by the input length. -/
theorem encode_short : ∀ (s : List Nat), s.length ≤ 8 →
    encode s = s ++ List.replicate (8 - s.length) 0 ++ [s.length]
  | [], _ => rfl
  | [_], _ => rfl
  | [_, _], _ => rfl
  | [_, _, _], _ => rfl
  | [_, _, _, _], _ => rfl
  | [_, _, _, _, _], _ => rfl
  | [_, _, _, _, _, _], _ => rfl
  | [_, _, _, _, _, _, _], _ => rfl
  | [_, _, _, _, _, _, _, _], _ => rfl
  | _ :: _ :: _ :: _ :: _ :: _ :: _ :: _ :: _ :: _, hlen => absurd hlen (by simp)

/-- On 9 or more input bytes, `encode` emits a full continuation group and
recurses. -/
theorem encode_long (b0 b1 b2 b3 b4 b5 b6 b7 b8 : Nat) (rest : List Nat) :
    encode (b0 :: b1 :: b2 :: b3 :: b4 :: b5 :: b6 :: b7 :: b8 :: rest) =
      b0 :: b1 :: b2 :: b3 :: b4 :: b5 :: b6 :: b7 :: 9 :: encode (b8 :: rest) := rfl

/-- `decode` panics (returns `none` in the model) on fewer than 9 bytes. -/
theorem decode_short : ∀ (s : List Nat), s.length < 9 → decode s = none
  | [], _ => rfl
  | [_], _ => rfl
  | [_, _], _ => rfl
  | [_, _, _], _ => rfl
  | [_, _, _, _], _ => rfl
  | [_, _, _, _, _], _ => rfl
  | [_, _, _, _, _, _], _ => rfl
  | [_, _, _, _, _, _, _], _ => rfl
  | [_, _, _, _, _, _, _, _], _ => rfl
  | _ :: _ :: _ :: _ :: _ :: _ :: _ :: _ :: _ :: _, hlen => absurd hlen (by simp)

end memcmpable

namespace tuple

/-- `tuple::encode`: encodes each element with the memcmp codec in order
and concatenates the results. -/
def encode : List (List Nat) → List Nat
  | [] => []
  | e :: es => memcmpable.encode e ++ encode es

end tuple

/-- If one `memcmpable::decode` step succeeds, it consumed at least one
9-byte group of the input. -/
theorem decode_length_lt :
    ∀ (src e rest : List Nat),
      memcmpable.decode src = some (e, rest) → rest.length + 9 ≤ src.length
  | b0 :: b1 :: b2 :: b3 :: b4 :: b5 :: b6 :: b7 :: extra :: rest, e, r => by
    simp only [memcmpable.decode]
    split
    · intro h
      obtain ⟨-, h2⟩ := Option.some.inj h |> Prod.mk.inj
      subst h2
      simp
    · cases h' : memcmpable.decode rest with
      | none => simp
      | some p =>
        obtain ⟨tail, rest2⟩ := p
        intro h
        obtain ⟨-, h2⟩ := Option.some.inj h |> Prod.mk.inj
        subst h2
        have := decode_length_lt rest tail rest2 h'
        simp only [List.length_cons]
        omega
  | [], _, _ => by simp [memcmpable.decode]
  | [_], _, _ => by simp [memcmpable.decode]
  | [_, _], _, _ => by simp [memcmpable.decode]
  | [_, _, _], _, _ => by simp [memcmpable.decode]
  | [_, _, _, _], _, _ => by simp [memcmpable.decode]
  | [_, _, _, _, _], _, _ => by simp [memcmpable.decode]
  | [_, _, _, _, _, _], _, _ => by simp [memcmpable.decode]
  | [_, _, _, _, _, _, _], _, _ => by simp [memcmpable.decode]
  | [_, _, _, _, _, _, _, _], _, _ => by simp [memcmpable.decode]

namespace tuple

/-- `tuple::decode`: repeatedly calls the element decoder on the remaining
input until it is empty.  `none` propagates a decoder panic. -/
def decode (bytes : List Nat) : Option (List (List Nat)) :=
  if _hb : bytes = [] then some []
  else
    match h : memcmpable.decode bytes with
    | none => none
    | some (e, rest) =>
      match decode rest with
      | none => none
      | some es => some (e :: es)
termination_by bytes.length
decreasing_by
  have := Relly.decode_length_lt bytes e rest h
  omega

end tuple

/-- Lexicographic byte-string comparison, as performed by `Ord` on `&[u8]`
in Rust (`memcmp` order): compare element-wise, ties broken by length. -/
def lexCmp : List Nat → List Nat → Ordering
  | [], [] => .eq
  | [], _ :: _ => .lt
  | _ :: _, [] => .gt
  | a :: as, b :: bs => (compare a b).then (lexCmp as bs)

/-- Lexicographic tuple comparison: compare elements with `lexCmp`, ties
broken by tuple length (what the spec calls tuple comparison). -/
def tupleCmp : List (List Nat) → List (List Nat) → Ordering
  | [], [] => .eq
  | [], _ :: _ => .lt
  | _ :: _, [] => .gt
  | a :: as, b :: bs => (lexCmp a b).then (tupleCmp as bs)

/-- The number of bytes `encode` emits: one 9-byte group per 8 input
bytes, with a minimum of one group. -/
theorem encode_length : ∀ s : List Nat,
    (memcmpable.encode s).length = 9 * max 1 ((s.length + 7) / 8)
  | b0 :: b1 :: b2 :: b3 :: b4 :: b5 :: b6 :: b7 :: b8 :: rest => by
    rw [memcmpable.encode_long]
    have ih := encode_length (b8 :: rest)
    simp only [List.length_cons] at *
    omega
  | [] => by decide
  | [_] => by rw [memcmpable.encode_short _ (by simp)]; simp
  | [_, _] => by rw [memcmpable.encode_short _ (by simp)]; simp
  | [_, _, _] => by rw [memcmpable.encode_short _ (by simp)]; simp
  | [_, _, _, _] => by rw [memcmpable.encode_short _ (by simp)]; simp
  | [_, _, _, _, _] => by rw [memcmpable.encode_short _ (by simp)]; simp
  | [_, _, _, _, _, _] => by rw [memcmpable.encode_short _ (by simp)]; simp
  | [_, _, _, _, _, _, _] => by rw [memcmpable.encode_short _ (by simp)]; simp
  | [_, _, _, _, _, _, _, _] => by rw [memcmpable.encode_short _ (by simp)]; simp

theorem encode_ne_nil (s : List Nat) : memcmpable.encode s ≠ [] := by
  intro h
  have := encode_length s
  rw [h] at this
  simp at this

/-- Decoding consumes exactly the encoding of the first element,
whatever follows it. -/
theorem decode_encode_append : ∀ (s rest : List Nat),
    memcmpable.decode (memcmpable.encode s ++ rest) = some (s, rest)
  | b0 :: b1 :: b2 :: b3 :: b4 :: b5 :: b6 :: b7 :: b8 :: rest', rest => by
    rw [memcmpable.encode_long]
    simp only [List.cons_append]
    rw [memcmpable.decode]
    simp only [if_neg (by omega : ¬ (9 : Nat) < 9)]
    rw [decode_encode_append (b8 :: rest') rest]
    rfl
  | [], rest => rfl
  | [a], rest => rfl
  | [a, b], rest => rfl
  | [a, b, c], rest => rfl
  | [a, b, c, d], rest => rfl
  | [a, b, c, d, e], rest => rfl
  | [a, b, c, d, e, f], rest => rfl
  | [a, b, c, d, e, f, g], rest => rfl
  | [a, b, c, d, e, f, g, h], rest => rfl

/-- Full round trip of the tuple codec. -/
theorem tuple_decode_encode : ∀ elems : List (List Nat),
    tuple.decode (tuple.encode elems) = some elems := by
  intro elems
  induction elems with
  | nil => show tuple.decode [] = some []; rw [tuple.decode]; simp
  | cons e es ih =>
    rw [show tuple.encode (e :: es) = memcmpable.encode e ++ tuple.encode es from rfl]
    rw [tuple.decode]
    rw [dif_neg (by simp [encode_ne_nil e])]
    rw [decode_encode_append e (tuple.encode es)]
    simp [ih]

/-- C1.  The claim `encoded_size(n) = ceil((n+1)/8)*9` matches the source
formula, but `encode` does NOT emit `encoded_size n` bytes for every
positive multiple of 8: at `n = 8` the encoder emits a single 9-byte group
(terminator 8) while `encoded_size 8 = 18`. -/
theorem c1_counterexample :
    ¬ ((memcmpable.encode (List.replicate 8 0)).length =
        memcmpable.encoded_size (List.replicate 8 0).length) := by decide

/-- C1 (amended).  `encoded_size(n) = ceil((n+1)/8) * 9` holds as stated,
and the memcmp encoder emits exactly `9 * max 1 (ceil(n/8))` bytes on an
input of length `n`; the two agree except when `n` is a positive multiple
of 8, where the emitted length is `encoded_size n - 9`. -/
theorem c1_encoded_size :
    (∀ n, memcmpable.encoded_size n = (n + 1 + 7) / 8 * 9) ∧
    (∀ s : List Nat, (memcmpable.encode s).length = 9 * max 1 ((s.length + 7) / 8)) ∧
    (∀ s : List Nat, s.length % 8 ≠ 0 ∨ s.length = 0 →
      (memcmpable.encode s).length = memcmpable.encoded_size s.length) := by
  refine ⟨fun n => by simp only [memcmpable.encoded_size], encode_length, fun s hs => ?_⟩
  rw [encode_length s]
  simp only [memcmpable.encoded_size]
  omega

/-- C1 (amended) witness at a concrete input. -/
theorem c1_encoded_size_witness :
    (memcmpable.encode [1, 2, 3]).length = memcmpable.encoded_size 3 :=
  c1_encoded_size.2.2 [1, 2, 3] (by decide)

/-- C9.  `decode (encode s) = s` for every byte string `s` (with all input
consumed), and the tuple decoder applied to the concatenation of the
element-wise encodings of any tuple returns exactly the original elements
in order. -/
theorem c9_roundtrip :
    (∀ s : List Nat, memcmpable.decode (memcmpable.encode s) = some (s, [])) ∧
    (∀ elems : List (List Nat), tuple.decode (tuple.encode elems) = some elems) :=
  ⟨fun s => by simpa using decode_encode_append s [], tuple_decode_encode⟩

/-- C10.  `memcmpable::decode` is partial: whenever the input begins with
a well-formed encoding produced by `encode`, every slice access is in
bounds and exactly that element's groups are consumed; but any remaining
input of fewer than 9 bytes — including the empty slice — makes `decode`
read out of bounds (modelled as `none`). -/
theorem c10_decode_partiality :
    (∀ s rest : List Nat,
      memcmpable.decode (memcmpable.encode s ++ rest) = some (s, rest)) ∧
    (∀ src : List Nat, src.length < 9 → memcmpable.decode src = none) :=
  ⟨decode_encode_append, memcmpable.decode_short⟩

/-- C10 witness: the empty input and a short input panic; a well-formed
prefix decodes. -/
theorem c10_decode_partiality_witness :
    memcmpable.decode [] = none ∧ memcmpable.decode [1, 2, 3] = none ∧
      memcmpable.decode (memcmpable.encode [1, 2] ++ [5]) = some ([1, 2], [5]) :=
  ⟨c10_decode_partiality.2 [] (by decide), c10_decode_partiality.2 [1, 2, 3] (by decide),
    c10_decode_partiality.1 [1, 2] [5]⟩

/-! ### Order preservation of the memcmp codec -/

theorem ordThen_assoc (x y z : Ordering) : (x.then y).then z = x.then (y.then z) := by
  cases x <;> rfl

theorem ordThen_lt (x : Ordering) : Ordering.lt.then x = .lt := rfl

theorem ordThen_gt (x : Ordering) : Ordering.gt.then x = .gt := rfl

theorem ordSwap_then (x y : Ordering) : (x.then y).swap = x.swap.then y.swap := by
  cases x <;> rfl

theorem natCompare_lt {a b : Nat} (h : a < b) : compare a b = .lt :=
  Nat.compare_eq_lt.mpr h

theorem natCompare_gt {a b : Nat} (h : b < a) : compare a b = .gt :=
  Nat.compare_eq_gt.mpr h

theorem natCompare_self (a : Nat) : compare a a = .eq :=
  Nat.compare_eq_eq.mpr rfl

theorem lexCmp_swap : ∀ a b : List Nat, lexCmp b a = (lexCmp a b).swap
  | [], [] => rfl
  | [], _ :: _ => rfl
  | _ :: _, [] => rfl
  | a :: as, b :: bs => by
    show (compare b a).then (lexCmp bs as) = ((compare a b).then (lexCmp as bs)).swap
    rw [ordSwap_then, lexCmp_swap as bs]
    rcases Nat.lt_trichotomy a b with h | h | h
    · rw [natCompare_lt h, natCompare_gt h]; rfl
    · subst h; rw [natCompare_self]; rfl
    · rw [natCompare_gt h, natCompare_lt h]; rfl

theorem lexCmp_append_left : ∀ (x u v : List Nat),
    lexCmp (x ++ u) (x ++ v) = lexCmp u v
  | [], _, _ => rfl
  | a :: x, u, v => by
    show (compare a a).then (lexCmp (x ++ u) (x ++ v)) = lexCmp u v
    rw [natCompare_self, lexCmp_append_left x u v]; rfl

theorem lexCmp_append_congr : ∀ (x y u v : List Nat), x.length = y.length →
    lexCmp (x ++ u) (y ++ v) = (lexCmp x y).then (lexCmp u v)
  | [], [], _, _, _ => rfl
  | a :: x, b :: y, u, v, h => by
    show (compare a b).then (lexCmp (x ++ u) (y ++ v)) =
      ((compare a b).then (lexCmp x y)).then (lexCmp u v)
    rw [lexCmp_append_congr x y u v (by simpa using h), ordThen_assoc]
  | [], _ :: _, _, _, h => by simp at h
  | _ :: _, [], _, _, h => by simp at h

theorem lexCmp_take_drop (n : Nat) (s t : List Nat)
    (h : (s.take n).length = (t.take n).length) :
    lexCmp s t = (lexCmp (s.take n) (t.take n)).then (lexCmp (s.drop n) (t.drop n)) := by
  conv_lhs => rw [← List.take_append_drop n s, ← List.take_append_drop n t]
  exact lexCmp_append_congr _ _ _ _ h

/-- A zero-padded terminated group with smaller terminator sorts strictly
below any same-width group with larger terminator whose payload starts
where the first string already ended. -/
theorem lexCmp_zero_pad_lt : ∀ (t : List Nat) (w a b : Nat) (u v : List Nat),
    t.length ≤ w → a < b →
    lexCmp (List.replicate w 0 ++ a :: u)
      (t ++ (List.replicate (w - t.length) 0 ++ b :: v)) = .lt
  | [], w, a, b, u, v, _, hab => by
    simp only [List.nil_append, List.length_nil, Nat.sub_zero]
    rw [lexCmp_append_left]
    show (compare a b).then _ = _
    rw [natCompare_lt hab, ordThen_lt]
  | y :: ys, w, a, b, u, v, ht, hab => by
    match w, ht with
    | w' + 1, ht => ?_
    have hrep : List.replicate (w' + 1) 0 ++ a :: u =
        0 :: (List.replicate w' 0 ++ a :: u) := by simp [List.replicate_succ]
    rw [hrep]
    show lexCmp (0 :: (List.replicate w' 0 ++ a :: u))
      (y :: (ys ++ (List.replicate (w' + 1 - (ys.length + 1)) 0 ++ b :: v))) = .lt
    show (compare 0 y).then
      (lexCmp (List.replicate w' 0 ++ a :: u)
        (ys ++ (List.replicate (w' + 1 - (ys.length + 1)) 0 ++ b :: v))) = .lt
    match y with
    | 0 =>
      rw [natCompare_self]
      have : w' + 1 - (ys.length + 1) = w' - ys.length := by omega
      rw [this]
      exact lexCmp_zero_pad_lt ys w' a b u v (by simpa using ht) hab
    | Nat.succ y' =>
      rw [natCompare_lt (Nat.succ_pos y'), ordThen_lt]

/-- Comparing two zero-padded terminated groups of the same width, where
the terminators differ exactly as the payload lengths do (as they do for
final `encode` groups), is the same as comparing the payloads, ties
falling through to the tails. -/
theorem lexCmp_groups_balanced : ∀ (s t : List Nat) (w a b : Nat) (u v : List Nat),
    s.length ≤ w → t.length ≤ w → a + t.length = b + s.length →
    lexCmp (s ++ (List.replicate (w - s.length) 0 ++ a :: u))
      (t ++ (List.replicate (w - t.length) 0 ++ b :: v)) =
    (lexCmp s t).then (lexCmp u v)
  | [], [], w, a, b, u, v, _, _, hab => by
    simp only [List.nil_append, List.length_nil, Nat.sub_zero] at *
    rw [lexCmp_append_left]
    show (compare a b).then (lexCmp u v) = Ordering.eq.then (lexCmp u v)
    rw [show a = b from by omega, natCompare_self]
  | [], y :: ys, w, a, b, u, v, _, ht, hab => by
    have h1 := lexCmp_zero_pad_lt (y :: ys) w a b u v ht
      (by simp only [List.length_cons, List.length_nil] at hab; omega)
    show lexCmp (List.replicate w 0 ++ a :: u)
      ((y :: ys) ++ (List.replicate (w - (y :: ys).length) 0 ++ b :: v)) =
      (lexCmp [] (y :: ys)).then (lexCmp u v)
    rw [h1]
    rfl
  | x :: xs, [], w, a, b, u, v, hs, _, hab => by
    have h1 := lexCmp_zero_pad_lt (x :: xs) w b a v u hs
      (by simp only [List.length_cons, List.length_nil] at hab; omega)
    have h2 := lexCmp_swap (List.replicate w 0 ++ b :: v)
      ((x :: xs) ++ (List.replicate (w - (x :: xs).length) 0 ++ a :: u))
    show lexCmp ((x :: xs) ++ (List.replicate (w - (x :: xs).length) 0 ++ a :: u))
      (List.replicate w 0 ++ b :: v) = (lexCmp (x :: xs) []).then (lexCmp u v)
    rw [h2, h1]
    rfl
  | x :: xs, y :: ys, w, a, b, u, v, hs, ht, hab => by
    match w, hs with
    | w' + 1, hs => ?_
    show (compare x y).then
        (lexCmp (xs ++ (List.replicate (w' + 1 - (xs.length + 1)) 0 ++ a :: u))
          (ys ++ (List.replicate (w' + 1 - (ys.length + 1)) 0 ++ b :: v))) = _
    have hxs : w' + 1 - (xs.length + 1) = w' - xs.length := by omega
    have hys : w' + 1 - (ys.length + 1) = w' - ys.length := by omega
    rw [hxs, hys, lexCmp_groups_balanced xs ys w' a b u v (by simpa using hs)
      (by simp only [List.length_cons] at ht; omega)
      (by simp only [List.length_cons] at hab; omega)]
    show _ = ((compare x y).then (lexCmp xs ys)).then (lexCmp u v)
    rw [ordThen_assoc]

/-- Comparing a final (zero-padded, small-terminator) group against a full
continuation group decides like comparing the underlying strings, with the
shorter-side tie broken in favour of the continuing string. -/
theorem lexCmp_group_vs_continued : ∀ (s t : List Nat) (w a b : Nat) (u v : List Nat),
    s.length ≤ w → t.length = w → a < b →
    lexCmp (s ++ (List.replicate (w - s.length) 0 ++ a :: u)) (t ++ b :: v) =
      (lexCmp s t).then .lt
  | [], [], w, a, b, u, v, _, ht, hab => by
    simp only [List.nil_append, List.length_nil, Nat.sub_zero] at *
    subst ht
    show (compare a b).then (lexCmp u v) = Ordering.eq.then .lt
    rw [natCompare_lt hab]; rfl
  | [], y :: ys, w, a, b, u, v, _, ht, hab => by
    match w, ht with
    | w' + 1, ht => ?_
    have hrep : List.replicate (w' + 1) 0 ++ a :: u =
        0 :: (List.replicate w' 0 ++ a :: u) := by simp [List.replicate_succ]
    simp only [List.nil_append, List.length_nil, Nat.sub_zero] at *
    rw [hrep]
    show (compare 0 y).then
      (lexCmp (List.replicate w' 0 ++ a :: u) (ys ++ b :: v)) = _
    match y with
    | 0 =>
      rw [natCompare_self]
      have h1 := lexCmp_group_vs_continued [] ys w' a b u v (by simp) (by simpa using ht) hab
      simp only [List.nil_append, List.length_nil, Nat.sub_zero] at h1
      rw [h1]
      show (lexCmp [] ys).then Ordering.lt = Ordering.eq.then ((lexCmp [] (0 :: ys)).then .lt)
      cases ys <;> rfl
    | Nat.succ y' =>
      rw [natCompare_lt (Nat.succ_pos y')]
      rfl
  | x :: xs, [], w, a, b, u, v, hs, ht, _ => by
    subst ht
    simp at hs
  | x :: xs, y :: ys, w, a, b, u, v, hs, ht, hab => by
    match w, hs with
    | w' + 1, hs => ?_
    show (compare x y).then
        (lexCmp (xs ++ (List.replicate (w' + 1 - (xs.length + 1)) 0 ++ a :: u))
          (ys ++ b :: v)) = _
    have hxs : w' + 1 - (xs.length + 1) = w' - xs.length := by omega
    rw [hxs, lexCmp_group_vs_continued xs ys w' a b u v (by simpa using hs)
      (by simp only [List.length_cons] at ht; omega) hab]
    show _ = ((compare x y).then (lexCmp xs ys)).then Ordering.lt
    rw [ordThen_assoc]

/-- Comparing a short string against a strictly longer one decides on the
longer string's prefix of any width covering the short string, the tie
broken in favour of the longer string. -/
theorem lexCmp_take_lt : ∀ (s t : List Nat) (n : Nat), s.length ≤ n → n < t.length →
    lexCmp s t = (lexCmp s (t.take n)).then .lt
  | [], [], n, _, ht => by simp at ht
  | [], y :: ys, n, _, _ => by
    show Ordering.lt = (lexCmp [] ((y :: ys).take n)).then .lt
    cases n <;> rfl
  | x :: xs, [], n, _, ht => by simp at ht
  | x :: xs, y :: ys, n, hs, ht => by
    match n, hs with
    | n' + 1, hs => ?_
    show (compare x y).then (lexCmp xs ys) =
      ((compare x y).then (lexCmp xs (ys.take n'))).then .lt
    rw [lexCmp_take_lt xs ys n' (by simpa using hs)
      (by simp only [List.length_cons] at ht; omega), ordThen_assoc]

/-- On more than 8 input bytes, `encode` emits the first 8 bytes, the
continuation terminator, and the encoding of the rest. -/
theorem encode_long_take : ∀ (s : List Nat), 8 < s.length →
    memcmpable.encode s = s.take 8 ++ 9 :: memcmpable.encode (s.drop 8)
  | _ :: _ :: _ :: _ :: _ :: _ :: _ :: _ :: _ :: _, _ => rfl
  | [], h => absurd h (by simp)
  | [_], h => absurd h (by simp)
  | [_, _], h => absurd h (by simp)
  | [_, _, _], h => absurd h (by simp)
  | [_, _, _, _], h => absurd h (by simp)
  | [_, _, _, _, _], h => absurd h (by simp)
  | [_, _, _, _, _, _], h => absurd h (by simp)
  | [_, _, _, _, _, _, _], h => absurd h (by simp)
  | [_, _, _, _, _, _, _, _], h => absurd h (by simp)

theorem lexCmp_encode_append_mixed (s t u v : List Nat) (hs : s.length ≤ 8)
    (ht : 8 < t.length) :
    lexCmp (memcmpable.encode s ++ u) (memcmpable.encode t ++ v) =
      (lexCmp s t).then (lexCmp u v) := by
  rw [memcmpable.encode_short s hs, encode_long_take t ht]
  have hshape1 : (s ++ List.replicate (8 - s.length) 0 ++ [s.length]) ++ u =
      s ++ (List.replicate (8 - s.length) 0 ++ s.length :: u) := by
    simp [List.append_assoc]
  have hshape2 : (t.take 8 ++ 9 :: memcmpable.encode (t.drop 8)) ++ v =
      t.take 8 ++ 9 :: (memcmpable.encode (t.drop 8) ++ v) := by
    simp [List.append_assoc]
  rw [hshape1, hshape2]
  rw [lexCmp_group_vs_continued s (t.take 8) 8 s.length 9 u
    (memcmpable.encode (t.drop 8) ++ v) hs (by simp [List.length_take]; omega) (by omega)]
  rw [lexCmp_take_lt s t 8 hs ht, ordThen_assoc, ordThen_lt]

/-- Master lemma: comparing two encoded strings, each followed by arbitrary
9-aligned continuations, compares the strings first and the continuations
on a tie. -/
theorem lexCmp_encode_append (s t u v : List Nat) :
    lexCmp (memcmpable.encode s ++ u) (memcmpable.encode t ++ v) =
      (lexCmp s t).then (lexCmp u v) := by
  by_cases hs : s.length ≤ 8 <;> by_cases ht : t.length ≤ 8
  · rw [memcmpable.encode_short s hs, memcmpable.encode_short t ht]
    have hshape1 : (s ++ List.replicate (8 - s.length) 0 ++ [s.length]) ++ u =
        s ++ (List.replicate (8 - s.length) 0 ++ s.length :: u) := by
      simp [List.append_assoc]
    have hshape2 : (t ++ List.replicate (8 - t.length) 0 ++ [t.length]) ++ v =
        t ++ (List.replicate (8 - t.length) 0 ++ t.length :: v) := by
      simp [List.append_assoc]
    rw [hshape1, hshape2]
    exact lexCmp_groups_balanced s t 8 s.length t.length u v hs ht (by omega)
  · exact lexCmp_encode_append_mixed s t u v hs (by omega)
  · have h1 := lexCmp_encode_append_mixed t s v u ht (by omega)
    have h2 := lexCmp_swap (memcmpable.encode t ++ v) (memcmpable.encode s ++ u)
    rw [h2, h1, ordSwap_then, lexCmp_swap s t, lexCmp_swap u v,
      Ordering.swap_swap, Ordering.swap_swap]
  · rw [encode_long_take s (by omega), encode_long_take t (by omega)]
    have hshape1 : (s.take 8 ++ 9 :: memcmpable.encode (s.drop 8)) ++ u =
        s.take 8 ++ (9 :: (memcmpable.encode (s.drop 8) ++ u)) := by
      simp [List.append_assoc]
    have hshape2 : (t.take 8 ++ 9 :: memcmpable.encode (t.drop 8)) ++ v =
        t.take 8 ++ (9 :: (memcmpable.encode (t.drop 8) ++ v)) := by
      simp [List.append_assoc]
    rw [hshape1, hshape2]
    rw [lexCmp_append_congr (s.take 8) (t.take 8) _ _
      (by simp [List.length_take]; omega)]
    show (lexCmp (s.take 8) (t.take 8)).then
      ((compare 9 9).then (lexCmp (memcmpable.encode (s.drop 8) ++ u)
        (memcmpable.encode (t.drop 8) ++ v))) = _
    rw [natCompare_self, lexCmp_encode_append (s.drop 8) (t.drop 8) u v]
    show (lexCmp (s.take 8) (t.take 8)).then
      ((lexCmp (s.drop 8) (t.drop 8)).then (lexCmp u v)) = _
    rw [← ordThen_assoc, ← lexCmp_take_drop 8 s t (by simp [List.length_take]; omega)]
termination_by s.length + t.length
decreasing_by
  simp only [List.length_drop]
  omega

/-- The element-wise encode-then-concatenate order agrees with tuple order. -/
theorem tupleEncode_order : ∀ (a b : List (List Nat)),
    lexCmp (tuple.encode a) (tuple.encode b) = tupleCmp a b
  | [], [] => rfl
  | [], e :: es => by
    show lexCmp [] (memcmpable.encode e ++ tuple.encode es) = .lt
    cases henc : memcmpable.encode e with
    | nil => exact absurd henc (encode_ne_nil e)
    | cons x xs => rfl
  | e :: es, [] => by
    show lexCmp (memcmpable.encode e ++ tuple.encode es) [] = .gt
    cases henc : memcmpable.encode e with
    | nil => exact absurd henc (encode_ne_nil e)
    | cons x xs => rfl
  | a1 :: as, b1 :: bs => by
    show lexCmp (memcmpable.encode a1 ++ tuple.encode as)
      (memcmpable.encode b1 ++ tuple.encode bs) = (lexCmp a1 b1).then (tupleCmp as bs)
    rw [lexCmp_encode_append, tupleEncode_order as bs]

/-- C4.  For every two tuples of byte strings `a` and `b`, comparing the
concatenations of their element-wise memcmp encodings as raw byte strings
yields exactly the lexicographic tuple comparison of `a` and `b`; in
particular `encode a ≤ encode b` (byte-wise) iff `a ≤ b` (tuple order). -/
theorem c4_memcmp_order (a b : List (List Nat)) :
    lexCmp (tuple.encode a) (tuple.encode b) = tupleCmp a b ∧
    (lexCmp (tuple.encode a) (tuple.encode b) ≠ .gt ↔ tupleCmp a b ≠ .gt) := by
  have h := tupleEncode_order a b
  exact ⟨h, by rw [h]⟩

/-! ## Binary search (`src/bsearch.rs`)

The loop keeps `size = right - left`: `size` starts as `right - left`
(since `left = 0`, `right = size`) and is reassigned to `right - left` at
the end of every iteration, so at each loop head `mid = left + size / 2 =
left + (right - left) / 2`. -/

/-- The loop of `bsearch::binary_search_by`. -/
def bsearchGo (f : Nat → Ordering) (left right : Nat) : Except Nat Nat :=
  if left < right then
    let mid := left + (right - left) / 2
    match f mid with
    | .lt => bsearchGo f (mid + 1) right
    | .gt => bsearchGo f left mid
    | .eq => .ok mid
  else
    .error left
termination_by right - left
decreasing_by
  · omega
  · omega

/-- `bsearch::binary_search_by`: `Ok i` on a hit, `Err i` at the insertion
point. -/
def binary_search_by (size : Nat) (f : Nat → Ordering) : Except Nat Nat :=
  bsearchGo f 0 size

theorem bsearchGo_spec (f : Nat → Ordering) (n : Nat)
    (hlt : ∀ i j, i ≤ j → j < n → f j = .lt → f i = .lt)
    (hgt : ∀ i j, i ≤ j → j < n → f i = .gt → f j = .gt) :
    ∀ left right, left ≤ right → right ≤ n →
    (∀ j, j < left → f j = .lt) → (∀ j, right ≤ j → j < n → f j = .gt) →
    (∀ i, bsearchGo f left right = .ok i → i < n ∧ f i = .eq) ∧
    (∀ i, bsearchGo f left right = .error i →
      i ≤ n ∧ (∀ j, j < i → f j = .lt) ∧ (∀ j, i ≤ j → j < n → f j = .gt)) := by
  intro left right hlr hrn hinvl hinvr
  rw [bsearchGo]
  split
  · next hcond =>
    have hmidlt : left + (right - left) / 2 < right := by omega
    have hmidge : left ≤ left + (right - left) / 2 := by omega
    cases hf : f (left + (right - left) / 2) with
    | lt =>
      simp only [hf]
      have := bsearchGo_spec f n hlt hgt (left + (right - left) / 2 + 1) right
        (by omega) hrn
        (fun j hj => by
          rcases Nat.lt_or_ge j left with h | h
          · exact hinvl j h
          · exact hlt j (left + (right - left) / 2) (by omega) (by omega) hf)
        hinvr
      simpa using this
    | gt =>
      simp only [hf]
      have := bsearchGo_spec f n hlt hgt left (left + (right - left) / 2)
        (by omega) (by omega) hinvl
        (fun j hj hjn => hgt (left + (right - left) / 2) j hj hjn hf)
      simpa using this
    | eq =>
      simp only [hf]
      constructor
      · intro i hi
        simp only [Except.ok.injEq] at hi
        subst hi
        exact ⟨by omega, hf⟩
      · intro i hi
        simp at hi
  · next hcond =>
    have heq : left = right := by omega
    constructor
    · intro i hi
      simp at hi
    · intro i hi
      simp only [Except.error.injEq] at hi
      subst hi
      exact ⟨by omega, hinvl, heq ▸ hinvr⟩
termination_by left right => right - left
decreasing_by
  · omega
  · omega

/-- Correctness of `binary_search_by` against a comparator that is
monotone on `[0, n)` (as produced by a sorted slot array): `Ok i` is a
hit, `Err i` is the insertion point. -/
theorem binary_search_by_spec (f : Nat → Ordering) (n : Nat)
    (hlt : ∀ i j, i ≤ j → j < n → f j = .lt → f i = .lt)
    (hgt : ∀ i j, i ≤ j → j < n → f i = .gt → f j = .gt) :
    (∀ i, binary_search_by n f = .ok i → i < n ∧ f i = .eq) ∧
    (∀ i, binary_search_by n f = .error i →
      i ≤ n ∧ (∀ j, j < i → f j = .lt) ∧ (∀ j, i ≤ j → j < n → f j = .gt)) :=
  bsearchGo_spec f n hlt hgt 0 n (Nat.zero_le n) le_rfl
    (fun j hj => absurd hj (Nat.not_lt_zero j)) (fun j hj hjn => absurd hjn (by omega))

/-! ## Slotted page (`src/slotted.rs`)

The slotted region is modelled byte-exactly: `body` is the byte arena
that follows the 8-byte header, `pointers` holds the live `num_slots`
pointer entries of the pointer array at the front of the body, and
`free_space_offset` is the header field.  Data reads and writes go
through byte ranges of `body`, and `resize` physically shifts arena
bytes with `copy_within`, exactly as the source does.  (The source
stores the pointer array inside the first `4 * num_slots` bytes of the
body; under the well-formedness invariant below the data ranges never
reach into it, so keeping it as a separate list is faithful.)
Arithmetic on `u16`/`usize` fields is modelled on `Nat`/`Int`; under the
invariant every intermediate value stays within `u16` range for a 4096
byte page, so no wrap-around is lost. -/

namespace slotted

/-- `slotted::Pointer`: `offset` and `len` of one slot. -/
structure Pointer where
  offset : Nat
  len : Nat
deriving DecidableEq

/-- `slotted::Slotted`: header field `free_space_offset`, pointer array,
and the byte arena. -/
structure Slotted where
  pointers : List Pointer
  body : List Nat
  free_space_offset : Nat
deriving DecidableEq

/-- `Slotted::capacity`: length of the body. -/
def capacity (s : Slotted) : Nat := s.body.length

/-- `Slotted::num_slots`. -/
def num_slots (s : Slotted) : Nat := s.pointers.length

/-- `Slotted::pointers_size` (`size_of::<Pointer>() = 4`). -/
def pointers_size (s : Slotted) : Nat := 4 * num_slots s

/-- `Slotted::free_space`. -/
def free_space (s : Slotted) : Nat := s.free_space_offset - pointers_size s

/-- Indexing a slot (`Index<usize> for Slotted`): the `len`-byte view at
the slot's offset.  Out-of-range slot ids (a panic in the source) read
as `[]`; the theorems only use in-range ids. -/
def dataAt (s : Slotted) (i : Nat) : List Nat :=
  match s.pointers[i]? with
  | some p => (s.body.drop p.offset).take p.len
  | none => []

/-- Write `xs` over `l` starting at `pos` (a `copy_from_slice` into
`&mut l[pos..pos + xs.length]`). -/
def listWrite (l : List Nat) (pos : Nat) (xs : List Nat) : List Nat :=
  l.take pos ++ xs ++ l.drop (pos + xs.length)

/-- `copy_within(srcStart..srcEnd, dst)` on a byte slice (memmove
semantics: the source range is captured before writing). -/
def copyWithin (l : List Nat) (srcStart srcEnd dst : Nat) : List Nat :=
  listWrite l dst ((l.drop srcStart).take (srcEnd - srcStart))

/-- `Slotted::initialize`. -/
def initSlotted (s : Slotted) : Slotted :=
  { s with pointers := [], free_space_offset := s.body.length }

/-- `Slotted::insert`: fails (`none`) when
`free_space < size_of::<Pointer>() + len`; `none` also stands for the
panic of the pointer-array `copy_within` when `index > num_slots`.
Otherwise the free-space offset drops by `len` and a fresh pointer is
inserted at `index`.  The data bytes are left as they were
(uninitialised from the caller's viewpoint). -/
def insert (s : Slotted) (index len : Nat) : Option Slotted :=
  if free_space s < 4 + len then none
  else if num_slots s < index then none
  else
    let fso := s.free_space_offset - len
    some { s with
      pointers := s.pointers.insertIdx index { offset := fso, len := len },
      free_space_offset := fso }

/-- `Slotted::resize`: grows or shrinks slot `index` by
`len_incr = len_new - len_orig`, shifting the data bytes in
`free_space_offset..offset_orig` by `len_incr` and adjusting every
pointer with `offset ≤ offset_orig`.  `none` models both the explicit
out-of-space `None` and the panic on an out-of-range `index`. -/
def resize (s : Slotted) (index : Nat) (len_new : Nat) : Option Slotted :=
  match s.pointers[index]? with
  | none => none
  | some pOrig =>
    let len_orig := pOrig.len
    let len_incr : Int := (len_new : Int) - (len_orig : Int)
    if len_incr = 0 then some s
    else if (free_space s : Int) < len_incr then none
    else
      let offset_orig := pOrig.offset
      let fso_new := ((s.free_space_offset : Int) - len_incr).toNat
      let body1 := copyWithin s.body s.free_space_offset offset_orig fso_new
      let ptrs1 := s.pointers.map fun p =>
        if p.offset ≤ offset_orig then
          { p with offset := ((p.offset : Int) - len_incr).toNat }
        else p
      let ptrs2 := ptrs1.set index
        { offset := if len_new = 0 then fso_new
                    else ((offset_orig : Int) - len_incr).toNat,
          len := len_new }
      some { s with body := body1, pointers := ptrs2, free_space_offset := fso_new }

/-- `Slotted::remove`: `resize(index, 0)` then drop the pointer entry. -/
def remove (s : Slotted) (index : Nat) : Option Slotted :=
  (resize s index 0).map fun s1 => { s1 with pointers := s1.pointers.eraseIdx index }

/-- `slotted[index].copy_from_slice(buf)`: writes `buf` over slot
`index`'s data range; `none` models the panic on a length mismatch or
out-of-range index. -/
def writeData (s : Slotted) (index : Nat) (buf : List Nat) : Option Slotted :=
  match s.pointers[index]? with
  | none => none
  | some p =>
    if buf.length = p.len then
      some { s with body := listWrite s.body p.offset buf }
    else none

theorem getElem?_insertIdx_of_lt {α} (l : List α) (a : α) (i j : Nat) (hj : j < i)
    (hi : i ≤ l.length) : (l.insertIdx i a)[j]? = l[j]? := by
  have hjl : j < l.length := by omega
  rw [List.getElem?_eq_getElem (by rw [List.length_insertIdx i l hi]; omega),
    List.getElem?_eq_getElem hjl]
  simp [List.getElem_insertIdx_of_lt l a i j hj hjl]

theorem getElem?_insertIdx_self {α} (l : List α) (a : α) (i : Nat) (hi : i ≤ l.length) :
    (l.insertIdx i a)[i]? = some a := by
  rw [List.getElem?_eq_getElem (by rw [List.length_insertIdx i l hi]; omega)]
  simp [List.getElem_insertIdx_self l a i hi]

theorem getElem?_insertIdx_succ {α} (l : List α) (a : α) (i j : Nat) (hij : i ≤ j)
    (hi : i ≤ l.length) : (l.insertIdx i a)[j + 1]? = l[j]? := by
  rcases Nat.lt_or_ge j l.length with h | h
  · obtain ⟨k, rfl⟩ : ∃ k, j = i + k := ⟨j - i, by omega⟩
    rw [List.getElem?_eq_getElem (by rw [List.length_insertIdx i l hi]; omega),
      List.getElem?_eq_getElem h]
    simp [List.getElem_insertIdx_add_succ l a i k h]
  · have h1 : (l.insertIdx i a)[j + 1]? = none :=
      List.getElem?_eq_none (by rw [List.length_insertIdx i l hi]; omega)
    have h2 : l[j]? = none := List.getElem?_eq_none (by omega)
    rw [h1, h2]

theorem getElem?_eraseIdx_of_lt {α} (l : List α) (i j : Nat) (hj : j < i) :
    (l.eraseIdx i)[j]? = l[j]? := by
  rw [List.eraseIdx_eq_take_drop_succ]
  rcases Nat.lt_or_ge j l.length with h | h
  · rw [List.getElem?_append_left (by simp [List.length_take]; omega),
      List.getElem?_take_of_lt hj]
  · rw [List.getElem?_eq_none h, List.getElem?_eq_none]
    simp [List.length_take, List.length_drop]
    omega

theorem getElem?_eraseIdx_of_ge {α} (l : List α) (i j : Nat) (hj : i ≤ j)
    (hi : i < l.length) : (l.eraseIdx i)[j]? = l[j + 1]? := by
  rw [List.eraseIdx_eq_take_drop_succ]
  rw [List.getElem?_append_right (by simp [List.length_take]; omega)]
  rw [List.getElem?_drop]
  congr 1
  simp [List.length_take]
  omega

theorem listWrite_length (l xs : List Nat) (pos : Nat) (h : pos + xs.length ≤ l.length) :
    (listWrite l pos xs).length = l.length := by
  simp [listWrite, List.length_take, List.length_drop]
  omega

theorem listWrite_getElem? (l xs : List Nat) (pos q : Nat) (h : pos + xs.length ≤ l.length) :
    (listWrite l pos xs)[q]? =
      if q < pos then l[q]?
      else if q < pos + xs.length then xs[q - pos]?
      else l[q]? := by
  unfold listWrite
  have htl : (l.take pos).length = pos := by simp [List.length_take]; omega
  split
  · next hq =>
    rw [List.getElem?_append_left (by simp [List.length_append, htl]; omega),
      List.getElem?_append_left (by rw [htl]; omega), List.getElem?_take_of_lt hq]
  · next hq =>
    split
    · next hq2 =>
      rw [List.getElem?_append_left (by simp [List.length_append, htl]; omega),
        List.getElem?_append_right (by rw [htl]; omega), htl]
    · next hq2 =>
      rw [List.getElem?_append_right (by simp [List.length_append, htl]; omega),
        List.getElem?_drop]
      congr 1
      simp [List.length_append, htl]
      omega

theorem copyWithin_length (l : List Nat) (srcStart srcEnd dst : Nat)
    (hsrc : srcEnd ≤ l.length) (hs2 : srcStart ≤ srcEnd)
    (hdst : dst + (srcEnd - srcStart) ≤ l.length) :
    (copyWithin l srcStart srcEnd dst).length = l.length := by
  unfold copyWithin
  rw [listWrite_length]
  have : ((l.drop srcStart).take (srcEnd - srcStart)).length = srcEnd - srcStart := by
    simp [List.length_take, List.length_drop]
    omega
  rw [this]
  exact hdst

theorem copyWithin_getElem? (l : List Nat) (srcStart srcEnd dst q : Nat)
    (hsrc : srcEnd ≤ l.length) (hs2 : srcStart ≤ srcEnd)
    (hdst : dst + (srcEnd - srcStart) ≤ l.length) :
    (copyWithin l srcStart srcEnd dst)[q]? =
      if q < dst then l[q]?
      else if q < dst + (srcEnd - srcStart) then l[srcStart + (q - dst)]?
      else l[q]? := by
  unfold copyWithin
  have hlen : ((l.drop srcStart).take (srcEnd - srcStart)).length = srcEnd - srcStart := by
    simp [List.length_take, List.length_drop]
    omega
  rw [listWrite_getElem? l _ dst q (by rw [hlen]; exact hdst), hlen]
  split
  · rfl
  · split
    · next h1 h2 =>
      rw [List.getElem?_take_of_lt (by omega), List.getElem?_drop]
    · rfl

theorem slice_ext (l1 l2 : List Nat) (o1 o2 n : Nat)
    (h : ∀ r, r < n → l1[o1 + r]? = l2[o2 + r]?) :
    (l1.drop o1).take n = (l2.drop o2).take n := by
  apply List.ext_getElem?
  intro m
  rcases Nat.lt_or_ge m n with hm | hm
  · rw [List.getElem?_take_of_lt hm, List.getElem?_take_of_lt hm,
      List.getElem?_drop, List.getElem?_drop]
    exact h m hm
  · rw [List.getElem?_eq_none (by simp [List.length_take]; omega),
      List.getElem?_eq_none (by simp [List.length_take]; omega)]

/-- A pointer's data range lies between the free-space offset and the end
of the body. -/
def inBounds (s : Slotted) (p : Pointer) : Prop :=
  s.free_space_offset ≤ p.offset ∧ p.offset + p.len ≤ s.body.length

instance (s : Slotted) (p : Pointer) : Decidable (inBounds s p) := by
  unfold inBounds; infer_instance

/-- Two slots' data ranges do not overlap. -/
def disjoint (p q : Pointer) : Prop :=
  p.offset + p.len ≤ q.offset ∨ q.offset + q.len ≤ p.offset

instance : DecidableRel disjoint := fun p q => by
  unfold disjoint; infer_instance

/-- Well-formedness of a slotted region: the pointer array fits under the
free-space offset, which lies inside the body; every slot's data range
lies between the free-space offset and the end of the body; the ranges
are pairwise disjoint; and the region fits `u16` header fields. -/
def WF (s : Slotted) : Prop :=
  4 * s.pointers.length ≤ s.free_space_offset ∧
  s.free_space_offset ≤ s.body.length ∧
  s.body.length ≤ 65535 ∧
  (∀ p ∈ s.pointers, inBounds s p) ∧
  s.pointers.Pairwise disjoint

instance (s : Slotted) : Decidable (WF s) := by
  unfold WF; infer_instance

theorem pairwise_of_forall_getElem? {α} (R : α → α → Prop) (l : List α)
    (h : ∀ (i j : Nat) (a b : α), i < j → l[i]? = some a → l[j]? = some b → R a b) :
    l.Pairwise R := by
  rw [List.pairwise_iff_getElem]
  intro i j h1 h2 hij
  exact h i j _ _ hij (List.getElem?_eq_getElem h1) (List.getElem?_eq_getElem h2)

theorem pairwise_getElem? {α} {R : α → α → Prop} {l : List α} (hp : l.Pairwise R)
    {i j : Nat} {a b : α} (hij : i < j) (ha : l[i]? = some a) (hb : l[j]? = some b) :
    R a b := by
  rw [List.pairwise_iff_getElem] at hp
  have hjl : j < l.length := by
    by_contra hc
    rw [List.getElem?_eq_none (by omega)] at hb
    cases hb
  have hil : i < l.length := by omega
  rw [List.getElem?_eq_getElem hil] at ha
  rw [List.getElem?_eq_getElem hjl] at hb
  cases ha
  cases hb
  exact hp i j hil hjl hij

/-- `Slotted::insert` succeeds exactly under the free-space check, adds
one slot at `index` whose data is the fresh `len` bytes directly below
the old free-space offset, keeps all bytes, and preserves every other
slot's content (indices at or above `index` shift up by one). -/
theorem insert_spec (s : Slotted) (index len : Nat) (s' : Slotted)
    (hwf : WF s) (h : insert s index len = some s') :
    WF s' ∧
    s'.body = s.body ∧
    num_slots s' = num_slots s + 1 ∧
    s'.free_space_offset = s.free_space_offset - len ∧
    s'.pointers[index]? = some ⟨s.free_space_offset - len, len⟩ ∧
    (∀ j, j < index → dataAt s' j = dataAt s j) ∧
    (∀ j, index ≤ j → dataAt s' (j + 1) = dataAt s j) := by
  obtain ⟨hw1, hw2, hw3, hw4, hw5⟩ := hwf
  unfold insert at h
  by_cases hfree : free_space s < 4 + len
  · rw [if_pos hfree] at h; cases h
  rw [if_neg hfree] at h
  by_cases hidx : num_slots s < index
  · rw [if_pos hidx] at h; cases h
  rw [if_neg hidx] at h
  injection h with h
  subst h
  have hidx' : index ≤ s.pointers.length := by
    simpa [num_slots] using hidx
  have hfree' : 4 * s.pointers.length + 4 + len ≤ s.free_space_offset := by
    unfold free_space pointers_size num_slots at hfree
    omega
  refine ⟨⟨?_, by simp; omega, by simpa using hw3, ?_, ?_⟩, rfl,
    by simp [num_slots, List.length_insertIdx index s.pointers hidx'],
    rfl, getElem?_insertIdx_self s.pointers _ index hidx', ?_, ?_⟩
  · simp only [List.length_insertIdx index s.pointers hidx']
    omega
  · intro p hp
    rw [List.mem_insertIdx hidx'] at hp
    rcases hp with rfl | hp
    · exact ⟨le_rfl, by simp; omega⟩
    · obtain ⟨hb1, hb2⟩ := hw4 p hp
      exact ⟨by simp; omega, by simpa using hb2⟩
  · apply pairwise_of_forall_getElem?
    intro i j a b hij ha hb
    rcases Nat.lt_trichotomy j index with hj | rfl | hj
    · rw [getElem?_insertIdx_of_lt s.pointers _ index j hj hidx'] at hb
      rw [getElem?_insertIdx_of_lt s.pointers _ index i (by omega) hidx'] at ha
      exact pairwise_getElem? hw5 hij ha hb
    · rw [getElem?_insertIdx_self s.pointers _ j hidx'] at hb
      injection hb with hb
      subst hb
      rw [getElem?_insertIdx_of_lt s.pointers _ j i hij hidx'] at ha
      have := (hw4 a (List.getElem?_mem ha)).1
      right
      simp only []
      omega
    · obtain ⟨j', rfl⟩ : ∃ j', j = j' + 1 := ⟨j - 1, by omega⟩
      rw [getElem?_insertIdx_succ s.pointers _ index j' (by omega) hidx'] at hb
      rcases Nat.lt_trichotomy i index with hi | rfl | hi
      · rw [getElem?_insertIdx_of_lt s.pointers _ index i hi hidx'] at ha
        exact pairwise_getElem? hw5 (by omega : i < j') ha hb
      · rw [getElem?_insertIdx_self s.pointers _ i hidx'] at ha
        injection ha with ha
        subst ha
        have := (hw4 b (List.getElem?_mem hb)).1
        left
        simp only []
        omega
      · obtain ⟨i', rfl⟩ : ∃ i', i = i' + 1 := ⟨i - 1, by omega⟩
        rw [getElem?_insertIdx_succ s.pointers _ index i' (by omega) hidx'] at ha
        exact pairwise_getElem? hw5 (by omega : i' < j') ha hb
  · intro j hj
    unfold dataAt
    rw [getElem?_insertIdx_of_lt s.pointers _ index j hj hidx']
  · intro j hj
    unfold dataAt
    rw [getElem?_insertIdx_succ s.pointers _ index j hj hidx']

theorem listWrite_read (l xs : List Nat) (pos : Nat) (h : pos + xs.length ≤ l.length) :
    ((listWrite l pos xs).drop pos).take xs.length = xs := by
  apply List.ext_getElem?
  intro m
  rcases Nat.lt_or_ge m xs.length with hm | hm
  · rw [List.getElem?_take_of_lt hm, List.getElem?_drop,
      listWrite_getElem? l xs pos (pos + m) h, if_neg (by omega), if_pos (by omega)]
    congr 1
    omega
  · rw [List.getElem?_eq_none (by simp [List.length_take]; omega),
      List.getElem?_eq_none hm]

/-- `slotted[index].copy_from_slice(buf)` stores exactly `buf` in slot
`index` and leaves every other slot's content unchanged. -/
theorem writeData_spec (s : Slotted) (index : Nat) (buf : List Nat) (s' : Slotted)
    (hwf : WF s) (h : writeData s index buf = some s') :
    WF s' ∧ s'.pointers = s.pointers ∧
    s'.free_space_offset = s.free_space_offset ∧
    capacity s' = capacity s ∧
    dataAt s' index = buf ∧
    (∀ j, j ≠ index → dataAt s' j = dataAt s j) := by
  obtain ⟨hw1, hw2, hw3, hw4, hw5⟩ := hwf
  unfold writeData at h
  cases hp : s.pointers[index]? with
  | none => rw [hp] at h; cases h
  | some p =>
    rw [hp] at h
    dsimp only at h
    by_cases hlen : buf.length = p.len
    · rw [if_pos hlen] at h
      injection h with h
      subst h
      obtain ⟨hb1, hb2⟩ := hw4 p (List.getElem?_mem hp)
      have hwr : p.offset + buf.length ≤ s.body.length := by omega
      have hblen : (listWrite s.body p.offset buf).length = s.body.length :=
        listWrite_length s.body buf p.offset hwr
      refine ⟨⟨hw1, by simpa [hblen] using hw2, by simpa [hblen] using hw3,
        fun q hq => ⟨(hw4 q hq).1, by simpa [hblen] using (hw4 q hq).2⟩, hw5⟩,
        rfl, rfl, by simpa [capacity] using hblen, ?_, ?_⟩
      · unfold dataAt
        dsimp only
        rw [hp]
        dsimp only
        rw [← hlen]
        exact listWrite_read s.body buf p.offset hwr
      · intro j hj
        unfold dataAt
        cases hq : s.pointers[j]? with
        | none => rfl
        | some q =>
          rcases Nat.eq_zero_or_pos q.len with hql | hql
          · simp [hql]
          · have hdis : q.offset + q.len ≤ p.offset ∨ p.offset + p.len ≤ q.offset := by
              rcases Nat.lt_or_ge j index with hji | hji
              · rcases pairwise_getElem? hw5 hji hq hp with hd | hd
                · exact Or.inl hd
                · exact Or.inr hd
              · have hji' : index < j := by omega
                rcases pairwise_getElem? hw5 hji' hp hq with hd | hd
                · exact Or.inr hd
                · exact Or.inl hd
            apply slice_ext
            intro r hr
            rw [listWrite_getElem? s.body buf p.offset (q.offset + r) hwr]
            rcases hdis with hd | hd
            · rw [if_pos (by omega)]
            · rw [if_neg (by omega), if_neg (by omega)]
    · rw [if_neg hlen] at h
      cases h

/-- `Slotted::resize` keeps the slot count and capacity, gives slot
`index` the requested length, moves the free-space offset by the length
difference, and preserves every other slot's content — provided no other
nonempty slot starts at the resized slot's offset (automatic whenever the
resized slot is nonempty; the counterexample below shows the proviso is
real). -/
theorem resize_spec (s : Slotted) (index len_new : Nat) (s' : Slotted) (p : Pointer)
    (hwf : WF s) (hp : s.pointers[index]? = some p)
    (hcol : ∀ (j : Nat) (q : Pointer), j ≠ index → s.pointers[j]? = some q →
      q.offset = p.offset → q.len = 0)
    (h : resize s index len_new = some s') :
    WF s' ∧ num_slots s' = num_slots s ∧ capacity s' = capacity s ∧
    ((s'.free_space_offset : Int) = (s.free_space_offset : Int) + p.len - len_new) ∧
    (∃ q : Pointer, s'.pointers[index]? = some q ∧ q.len = len_new) ∧
    (∀ j, j ≠ index → dataAt s' j = dataAt s j) := by
  obtain ⟨hw1, hw2, hw3, hw4, hw5⟩ := hwf
  unfold resize at h
  rw [hp] at h
  dsimp only at h
  by_cases hzero : (len_new : Int) - (p.len : Int) = 0
  · rw [if_pos hzero] at h
    injection h with h
    subst h
    exact ⟨⟨hw1, hw2, hw3, hw4, hw5⟩, rfl, rfl, by omega, ⟨p, hp, by omega⟩,
      fun j hj => rfl⟩
  rw [if_neg hzero] at h
  by_cases hfree : (free_space s : Int) < (len_new : Int) - (p.len : Int)
  · rw [if_pos hfree] at h
    cases h
  rw [if_neg hfree] at h
  injection h with h
  subst h
  have hidx : index < s.pointers.length := by
    by_contra hc
    rw [List.getElem?_eq_none (by omega)] at hp
    cases hp
  obtain ⟨hbO, hbOL⟩ := hw4 p (List.getElem?_mem hp)
  unfold free_space pointers_size num_slots at hfree
  have htn : ((((s.free_space_offset : Int) - ((len_new : Int) - (p.len : Int))).toNat : Int))
      = (s.free_space_offset : Int) - ((len_new : Int) - (p.len : Int)) := by omega
  have hdstN : (((s.free_space_offset : Int) - ((len_new : Int) - (p.len : Int))).toNat)
      + (p.offset - s.free_space_offset) ≤ s.body.length := by omega
  have hbodylen : (copyWithin s.body s.free_space_offset p.offset
      (((s.free_space_offset : Int) - ((len_new : Int) - (p.len : Int))).toNat)).length
      = s.body.length :=
    copyWithin_length _ _ _ _ (by omega) hbO hdstN
  have hbody := fun q => copyWithin_getElem? s.body s.free_space_offset p.offset
    (((s.free_space_offset : Int) - ((len_new : Int) - (p.len : Int))).toNat) q (by omega) hbO hdstN
  have hdisj : ∀ (k l : Nat) (q r : Pointer), k < l → s.pointers[k]? = some q →
      s.pointers[l]? = some r →
      (q.offset + q.len ≤ r.offset ∨ r.offset + r.len ≤ q.offset) := by
    intro k l q r hkl hk hl
    have := pairwise_getElem? hw5 hkl hk hl
    unfold disjoint at this
    exact this
  have hside : ∀ (k : Nat) (q : Pointer), k ≠ index → s.pointers[k]? = some q →
      (s.free_space_offset ≤ q.offset ∧ q.offset + q.len ≤ s.body.length) ∧
      (0 < q.len → q.offset ≤ p.offset → q.offset + q.len ≤ p.offset) ∧
      (p.offset < q.offset → p.offset + p.len ≤ q.offset) := by
    intro k q hk hq
    have hin := hw4 q (List.getElem?_mem hq)
    unfold inBounds at hin
    have hdis : q.offset + q.len ≤ p.offset ∨ p.offset + p.len ≤ q.offset := by
      rcases Nat.lt_or_ge k index with hki | hki
      · exact hdisj k index q p hki hq hp
      · have hki' : index < k := by omega
        rcases hdisj index k p q hki' hp hq with hd | hd
        · exact Or.inr hd
        · exact Or.inl hd
    have hc := hcol k q hk hq
    refine ⟨hin, ?_, ?_⟩
    · intro h1 h2
      rcases hdis with hd | hd
      · exact hd
      · have hqo : q.offset = p.offset := by omega
        have := hc hqo
        omega
    · intro h1
      rcases hdis with hd | hd
      · omega
      · exact hd
  have hptr_at : ∀ (j : Nat) (q : Pointer), j ≠ index → s.pointers[j]? = some q →
      ((s.pointers.map fun q => if q.offset ≤ p.offset then
          ({ q with offset := ((q.offset : Int) - ((len_new : Int) - (p.len : Int))).toNat }
            : Pointer)
        else q).set index
        (⟨(if len_new = 0
          then ((s.free_space_offset : Int) - ((len_new : Int) - (p.len : Int))).toNat
          else ((p.offset : Int) - ((len_new : Int) - (p.len : Int))).toNat),
        len_new⟩ : Pointer))[j]? =
      some (if q.offset ≤ p.offset then
          ({ q with offset := ((q.offset : Int) - ((len_new : Int) - (p.len : Int))).toNat }
            : Pointer)
        else q) := by
    intro j q hj hq
    rw [List.getElem?_set_ne (fun hc => hj hc.symm), List.getElem?_map, hq]
    rfl
  have hptr_idx :
      ((s.pointers.map fun q => if q.offset ≤ p.offset then
          ({ q with offset := ((q.offset : Int) - ((len_new : Int) - (p.len : Int))).toNat }
            : Pointer)
        else q).set index
        (⟨(if len_new = 0
          then ((s.free_space_offset : Int) - ((len_new : Int) - (p.len : Int))).toNat
          else ((p.offset : Int) - ((len_new : Int) - (p.len : Int))).toNat),
        len_new⟩ : Pointer))[index]? =
      some (⟨(if len_new = 0
          then ((s.free_space_offset : Int) - ((len_new : Int) - (p.len : Int))).toNat
          else ((p.offset : Int) - ((len_new : Int) - (p.len : Int))).toNat),
        len_new⟩ : Pointer) := by
    have : index < (s.pointers.map fun q => if q.offset ≤ p.offset then
        ({ q with offset := ((q.offset : Int) - ((len_new : Int) - (p.len : Int))).toNat }
          : Pointer)
      else q).length := by
      simpa using hidx
    exact List.getElem?_set_eq_of_lt _ this
  refine ⟨⟨?_, ?_, ?_, ?_, ?_⟩, ?_, ?_, ?_, ?_, ?_⟩
  · simp only [List.length_set, List.length_map]
    omega
  · dsimp only
    rw [hbodylen]
    omega
  · dsimp only
    rw [hbodylen]
    exact hw3
  · intro q' hq'
    unfold inBounds
    dsimp only
    rw [hbodylen]
    rw [List.mem_iff_getElem?] at hq'
    obtain ⟨k, hk⟩ := hq'
    by_cases hki : k = index
    · subst hki
      rw [hptr_idx] at hk
      injection hk with hk
      subst hk
      dsimp only
      split <;> omega
    · cases hq : s.pointers[k]? with
      | none =>
        rw [List.getElem?_set_ne (fun hc => hki hc.symm), List.getElem?_map, hq] at hk
        cases hk
      | some q =>
        rw [hptr_at k q hki hq] at hk
        injection hk with hk
        subst hk
        obtain ⟨⟨hqF, hqN⟩, hbelow, habove⟩ := hside k q hki hq
        by_cases hadj : q.offset ≤ p.offset
        · rw [if_pos hadj]
          dsimp only
          rcases Nat.eq_zero_or_pos q.len with hql | hql
          · omega
          · have := hbelow hql hadj
            omega
        · rw [if_neg hadj]
          have := habove (by omega)
          omega
  · apply pairwise_of_forall_getElem?
    intro i j a b hij ha hb
    unfold disjoint
    have hchar : ∀ (k : Nat) (c : Pointer),
        ((s.pointers.map fun q => if q.offset ≤ p.offset then
            ({ q with offset := ((q.offset : Int) - ((len_new : Int) - (p.len : Int))).toNat }
              : Pointer)
          else q).set index
          (⟨(if len_new = 0
            then ((s.free_space_offset : Int) - ((len_new : Int) - (p.len : Int))).toNat
            else ((p.offset : Int) - ((len_new : Int) - (p.len : Int))).toNat),
          len_new⟩ : Pointer))[k]? = some c →
        (k = index ∧ c = (⟨(if len_new = 0
            then ((s.free_space_offset : Int) - ((len_new : Int) - (p.len : Int))).toNat
            else ((p.offset : Int) - ((len_new : Int) - (p.len : Int))).toNat),
          len_new⟩ : Pointer)) ∨
        (k ≠ index ∧ ∃ q, s.pointers[k]? = some q ∧
          c = (if q.offset ≤ p.offset then
            ({ q with offset := ((q.offset : Int) - ((len_new : Int) - (p.len : Int))).toNat }
              : Pointer)
          else q)) := by
      intro k c hk
      by_cases hki : k = index
      · subst hki
        rw [hptr_idx] at hk
        injection hk with hk
        exact Or.inl ⟨rfl, hk.symm⟩
      · cases hq : s.pointers[k]? with
        | none =>
          rw [List.getElem?_set_ne (fun hc => hki hc.symm), List.getElem?_map, hq] at hk
          cases hk
        | some q =>
          rw [hptr_at k q hki hq] at hk
          injection hk with hk
          exact Or.inr ⟨hki, q, rfl, hk.symm⟩
    rcases hchar i a ha with ⟨hii, rfl⟩ | ⟨hii, qa, hqa, rfl⟩ <;>
      rcases hchar j b hb with ⟨hjj, rfl⟩ | ⟨hjj, qb, hqb, rfl⟩
    · omega
    · subst hii
      obtain ⟨⟨hqF, hqN⟩, hbelow, habove⟩ := hside j qb hjj hqb
      try dsimp only
      by_cases hadj : qb.offset ≤ p.offset
      · rw [if_pos hadj]
        dsimp only
        rcases Nat.eq_zero_or_pos qb.len with hql | hql
        · split <;> omega
        · have := hbelow hql hadj
          split <;> omega
      · rw [if_neg hadj]
        try dsimp only
        have := habove (by omega)
        split <;> omega
    · subst hjj
      obtain ⟨⟨hqF, hqN⟩, hbelow, habove⟩ := hside i qa hii hqa
      try dsimp only
      by_cases hadj : qa.offset ≤ p.offset
      · rw [if_pos hadj]
        dsimp only
        rcases Nat.eq_zero_or_pos qa.len with hql | hql
        · split <;> omega
        · have := hbelow hql hadj
          split <;> omega
      · rw [if_neg hadj]
        try dsimp only
        have := habove (by omega)
        split <;> omega
    · obtain ⟨⟨haF, haN⟩, hbelowa, habovea⟩ := hside i qa hii hqa
      obtain ⟨⟨hbF, hbN⟩, hbelowb, haboveb⟩ := hside j qb hjj hqb
      have hdab : qa.offset + qa.len ≤ qb.offset ∨ qb.offset + qb.len ≤ qa.offset :=
        hdisj i j qa qb hij hqa hqb
      try dsimp only
      by_cases hadja : qa.offset ≤ p.offset <;> by_cases hadjb : qb.offset ≤ p.offset <;>
        first
        | rw [if_pos hadja, if_pos hadjb]
        | rw [if_pos hadja, if_neg hadjb]
        | rw [if_neg hadja, if_pos hadjb]
        | rw [if_neg hadja, if_neg hadjb]
      · try dsimp only
        omega
      · try dsimp only
        have hb2 := haboveb (by omega)
        rcases Nat.eq_zero_or_pos qa.len with hql | hql
        · omega
        · have := hbelowa hql hadja
          omega
      · try dsimp only
        have ha2 := habovea (by omega)
        rcases Nat.eq_zero_or_pos qb.len with hql | hql
        · omega
        · have := hbelowb hql hadjb
          omega
      · try dsimp only
        omega
  · simp only [num_slots, List.length_set, List.length_map]
  · simp only [capacity, hbodylen]
  · dsimp only
    omega
  · exact ⟨_, hptr_idx, rfl⟩
  · intro j hj
    unfold dataAt
    cases hq : s.pointers[j]? with
    | none =>
      rw [List.getElem?_set_ne (fun hc => hj hc.symm), List.getElem?_map, hq]
      rfl
    | some q =>
      rw [hptr_at j q hj hq]
      try dsimp only
      obtain ⟨⟨hqF, hqN⟩, hbelow, habove⟩ := hside j q hj hq
      by_cases hadj : q.offset ≤ p.offset
      · rw [if_pos hadj]
        dsimp only
        rcases Nat.eq_zero_or_pos q.len with hql | hql
        · simp [hql]
        · have hQtop := hbelow hql hadj
          apply slice_ext
          intro r hr
          rw [hbody _]
          rw [if_neg (by omega), if_pos (by omega)]
          congr 1
          omega
      · rw [if_neg hadj]
        try dsimp only
        have hQ := habove (by omega)
        apply slice_ext
        intro r hr
        rw [hbody _]
        rw [if_neg (by omega), if_neg (by omega)]

/-- `Slotted::remove` drops slot `index`, returns its bytes to free
space, and preserves every other slot's content (slots above `index`
shift down by one). -/
theorem remove_spec (s : Slotted) (index : Nat) (s' : Slotted) (p : Pointer)
    (hwf : WF s) (hp : s.pointers[index]? = some p)
    (h : remove s index = some s') :
    WF s' ∧ num_slots s' = num_slots s - 1 ∧ capacity s' = capacity s ∧
    ((s'.free_space_offset : Int) = (s.free_space_offset : Int) + p.len) ∧
    (∀ j, j < index → dataAt s' j = dataAt s j) ∧
    (∀ j, index ≤ j → dataAt s' j = dataAt s (j + 1)) := by
  have hidx : index < s.pointers.length := by
    by_contra hc
    rw [List.getElem?_eq_none (by omega)] at hp
    cases hp
  unfold remove at h
  cases hres : resize s index 0 with
  | none => rw [hres] at h; cases h
  | some s1 =>
    rw [hres] at h
    injection h with h
    subst h
    have key : WF s1 ∧ num_slots s1 = num_slots s ∧ capacity s1 = capacity s ∧
        ((s1.free_space_offset : Int) = (s.free_space_offset : Int) + p.len) ∧
        (∀ j, j ≠ index → dataAt s1 j = dataAt s j) := by
      by_cases hL : p.len = 0
      · have hs1 : s1 = s := by
          unfold resize at hres
          rw [hp] at hres
          dsimp only at hres
          rw [if_pos (by omega : ((0 : Nat) : Int) - (p.len : Int) = 0)] at hres
          exact (Option.some.inj hres).symm
        subst hs1
        exact ⟨hwf, rfl, rfl, by omega, fun j _ => rfl⟩
      · have hcol : ∀ (j : Nat) (q : Pointer), j ≠ index → s.pointers[j]? = some q →
            q.offset = p.offset → q.len = 0 := by
          intro j q hj hq hqo
          obtain ⟨-, -, -, -, hw5⟩ := hwf
          have hdis : q.offset + q.len ≤ p.offset ∨ p.offset + p.len ≤ q.offset := by
            rcases Nat.lt_or_ge j index with hji | hji
            · have := pairwise_getElem? hw5 hji hq hp
              unfold disjoint at this
              exact this
            · have hji' : index < j := by omega
              have := pairwise_getElem? hw5 hji' hp hq
              unfold disjoint at this
              rcases this with hd | hd
              · exact Or.inr hd
              · exact Or.inl hd
          omega
        obtain ⟨hwf1, hn1, hcap1, hfso1, -, hpres1⟩ :=
          resize_spec s index 0 s1 p hwf hp hcol hres
        exact ⟨hwf1, hn1, hcap1, by omega, hpres1⟩
    obtain ⟨⟨k1, k2, k3, k4, k5⟩, hn1, hcap1, hfso1, hpres1⟩ := key
    have hidx1 : index < s1.pointers.length := by
      unfold num_slots at hn1
      omega
    have hlen1 : (s1.pointers.eraseIdx index).length = s1.pointers.length - 1 := by
      rw [List.length_eraseIdx]
      simp [hidx1]
    refine ⟨⟨?_, k2, k3, ?_, ?_⟩, ?_, ?_, ?_, ?_, ?_⟩
    · try dsimp only
      rw [hlen1]
      omega
    · intro q hq
      exact k4 q ((List.eraseIdx_sublist s1.pointers index).subset hq)
    · exact k5.sublist (List.eraseIdx_sublist s1.pointers index)
    · unfold num_slots at *
      try dsimp only
      simp only [hlen1]
      omega
    · exact hcap1
    · exact hfso1
    · intro j hj
      have : dataAt { s1 with pointers := s1.pointers.eraseIdx index } j = dataAt s1 j := by
        unfold dataAt
        rw [getElem?_eraseIdx_of_lt s1.pointers index j hj]
      rw [this]
      exact hpres1 j (by omega)
    · intro j hj
      have : dataAt { s1 with pointers := s1.pointers.eraseIdx index } j = dataAt s1 (j + 1) := by
        unfold dataAt
        rw [getElem?_eraseIdx_of_ge s1.pointers index j hj hidx1]
      rw [this]
      exact hpres1 (j + 1) (by omega)

end slotted

example :
    slotted.insert ⟨[], List.replicate 32 0, 32⟩ 0 2 =
      some ⟨[⟨30, 2⟩], List.replicate 32 0, 30⟩ := by decide

/-- A concrete operation sequence on a 32-byte slotted region: insert a
2-byte slot 0, write `[5, 6]` into it, then insert an empty slot 1
(which shares slot 0's offset, as the source produces). -/
def c7Seq : Option slotted.Slotted :=
  (slotted.insert (slotted.initSlotted ⟨[], List.replicate 32 0, 0⟩) 0 2).bind fun s1 =>
    (slotted.writeData s1 0 [5, 6]).bind fun s2 =>
      slotted.insert s2 1 0

/-- The state reached by `c7Seq`. -/
def c7State3 : slotted.Slotted :=
  ⟨[⟨30, 2⟩, ⟨30, 0⟩], List.replicate 30 0 ++ [5, 6], 30⟩

/-- The state after growing the empty slot 1 by `resize`. -/
def c7State4 : slotted.Slotted :=
  ⟨[⟨26, 2⟩, ⟨26, 4⟩], List.replicate 30 0 ++ [5, 6], 26⟩

/-- C7 (amended).  On well-formed slotted regions: `insert` preserves
every slot's logical content (slots at or above the insertion index
shift up by one); a slot write stores exactly the written bytes and
preserves every other slot; `resize` preserves every other slot's
content provided no other nonempty slot starts at the resized slot's
offset (which can only happen when the resized slot is empty — see the
counterexample); `remove` preserves every other slot's content (slots
above the removed index shift down by one).  All four preserve
well-formedness. -/
theorem c7_slotted_frame :
    (∀ (s : slotted.Slotted) (i len : Nat) (s' : slotted.Slotted), slotted.WF s →
      slotted.insert s i len = some s' → slotted.WF s' ∧
      (∀ j, j < i → slotted.dataAt s' j = slotted.dataAt s j) ∧
      (∀ j, i ≤ j → slotted.dataAt s' (j + 1) = slotted.dataAt s j)) ∧
    (∀ (s : slotted.Slotted) (i : Nat) (buf : List Nat) (s' : slotted.Slotted),
      slotted.WF s → slotted.writeData s i buf = some s' → slotted.WF s' ∧
      slotted.dataAt s' i = buf ∧
      (∀ j, j ≠ i → slotted.dataAt s' j = slotted.dataAt s j)) ∧
    (∀ (s : slotted.Slotted) (i len' : Nat) (s' : slotted.Slotted) (p : slotted.Pointer),
      slotted.WF s → s.pointers[i]? = some p →
      (∀ (j : Nat) (q : slotted.Pointer), j ≠ i → s.pointers[j]? = some q →
        q.offset = p.offset → q.len = 0) →
      slotted.resize s i len' = some s' → slotted.WF s' ∧
      (∀ j, j ≠ i → slotted.dataAt s' j = slotted.dataAt s j)) ∧
    (∀ (s : slotted.Slotted) (i : Nat) (s' : slotted.Slotted) (p : slotted.Pointer),
      slotted.WF s → s.pointers[i]? = some p → slotted.remove s i = some s' →
      slotted.WF s' ∧
      (∀ j, j < i → slotted.dataAt s' j = slotted.dataAt s j) ∧
      (∀ j, i ≤ j → slotted.dataAt s' j = slotted.dataAt s (j + 1))) := by
  refine ⟨fun s i len s' hwf h => ?_, fun s i buf s' hwf h => ?_,
    fun s i len' s' p hwf hp hcol h => ?_, fun s i s' p hwf hp h => ?_⟩
  · obtain ⟨h1, -, -, -, -, h2, h3⟩ := slotted.insert_spec s i len s' hwf h
    exact ⟨h1, h2, h3⟩
  · obtain ⟨h1, -, -, -, h2, h3⟩ := slotted.writeData_spec s i buf s' hwf h
    exact ⟨h1, h2, h3⟩
  · obtain ⟨h1, -, -, -, -, h2⟩ := slotted.resize_spec s i len' s' p hwf hp hcol h
    exact ⟨h1, h2⟩
  · obtain ⟨h1, -, -, -, h2, h3⟩ := slotted.remove_spec s i s' p hwf hp h
    exact ⟨h1, h2, h3⟩

/-- C7 witness: a concrete well-formed region where a slot write lands
exactly in the slot and the frame conditions evaluate. -/
theorem c7_slotted_frame_witness :
    slotted.WF (⟨[⟨14, 2⟩], List.replicate 16 0, 14⟩ : slotted.Slotted) ∧
    slotted.dataAt (⟨[⟨14, 2⟩], List.replicate 14 0 ++ [7, 8], 14⟩ : slotted.Slotted) 0
      = [7, 8] :=
  ⟨by decide,
    (c7_slotted_frame.2.1 ⟨[⟨14, 2⟩], List.replicate 16 0, 14⟩ 0 [7, 8]
      ⟨[⟨14, 2⟩], List.replicate 14 0 ++ [7, 8], 14⟩ (by decide) (by decide)).2.1⟩

/-- C7.  The claim fails: a `resize` that grows an empty slot sharing its
offset with a nonempty slot (reachable by `insert`; the pointer-adjust
loop tests `offset <= offset_orig`) relocates the other slot's pointer
without moving its bytes.  Concretely: on a well-formed 32-byte region,
after inserting slot 0 (2 bytes, content `[5, 6]`) and an empty slot 1,
`resize(1, 4)` succeeds yet slot 0 afterwards reads `[0, 0]`. -/
theorem c7_counterexample :
    c7Seq = some c7State3 ∧ slotted.WF c7State3 ∧
    slotted.dataAt c7State3 0 = [5, 6] ∧
    slotted.resize c7State3 1 4 = some c7State4 ∧
    slotted.dataAt c7State4 0 = [0, 0] ∧
    ¬ slotted.dataAt c7State4 0 = slotted.dataAt c7State3 0 := by decide

/-! ## B+Tree node pairs and the split loop
(`src/btree.rs` `Pair`, `src/btree/leaf.rs`, `src/btree/branch.rs`)

`Pair::to_bytes`/`from_bytes` use `bincode::options()`, whose default
configuration is variable-length (varint) little-endian length prefixes
with trailing bytes rejected.  The varint scheme: lengths below 251 are
one byte; then marker 251 plus `u16`, marker 252 plus `u32` (larger
markers cannot arise for in-page lengths and are not modelled —
`parseVarint` returns `none` for them, standing for a deserialize
error/panic). -/

namespace pair

/-- bincode varint encoding of a length (little endian). -/
def varint (n : Nat) : List Nat :=
  if n < 251 then [n]
  else if n < 65536 then [251, n % 256, n / 256]
  else [252, n % 256, n / 256 % 256, n / 65536 % 256, n / 16777216 % 256]

/-- bincode varint decoding; returns the value and the remaining bytes. -/
def parseVarint : List Nat → Option (Nat × List Nat)
  | [] => none
  | b :: rest =>
    if b < 251 then some (b, rest)
    else if b = 251 then
      match rest with
      | lo :: hi :: r => some (lo + 256 * hi, r)
      | _ => none
    else if b = 252 then
      match rest with
      | a :: b2 :: c :: d :: r => some (a + 256 * b2 + 65536 * c + 16777216 * d, r)
      | _ => none
    else none

/-- `Pair::to_bytes`: bincode serialization of `{key, value}`. -/
def to_bytes (key value : List Nat) : List Nat :=
  varint key.length ++ key ++ varint value.length ++ value

/-- `Pair::from_bytes`: bincode deserialization; `none` is a deserialize
panic.  Trailing bytes are rejected (bincode `DefaultOptions`), so the
value extends to the end of the slot. -/
def from_bytes (bytes : List Nat) : Option (List Nat × List Nat) :=
  match parseVarint bytes with
  | none => none
  | some (klen, r1) =>
    if klen ≤ r1.length then
      match parseVarint (r1.drop klen) with
      | none => none
      | some (vlen, r3) => if vlen = r3.length then some (r1.take klen, r3) else none
    else none

end pair

/-! Leaf and branch bodies wrap a slotted region; `Leaf::split_insert`
and `Branch::split_insert` run the same loop over it (the two sources
are textually identical up to which `insert` builds the pair bytes), so
the loop is modelled once over the slotted body. -/

namespace node

open slotted

/-- `max_pair_size`: `capacity / 2 - size_of::<Pointer>()`. -/
def max_pair_size (s : Slotted) : Nat := capacity s / 2 - 4

/-- `pair_at(i).key`: parse the slot and take the key.  An unparsable or
missing slot (a panic in the source) reads as `[]`; all uses are on
well-formed slots. -/
def keyAt (s : Slotted) (i : Nat) : List Nat :=
  ((pair.from_bytes (dataAt s i)).map Prod.fst).getD []

/-- `Leaf::search_slot_id` / `Branch::search_slot_id`: binary search on
the slot keys. -/
def search_slot_id (s : Slotted) (key : List Nat) : Except Nat Nat :=
  binary_search_by (num_slots s) fun i => lexCmp (keyAt s i) key

/-- The common body of `Leaf::insert` and `Branch::insert` once the pair
is serialized: assert the pair fits `max_pair_size` (`none` models the
assertion panic), insert a slot (`none` when the slotted region is out
of space), copy the bytes in. -/
def insertRaw (s : Slotted) (slot_id : Nat) (bytes : List Nat) : Option Slotted :=
  if bytes.length ≤ max_pair_size s then
    match slotted.insert s slot_id bytes.length with
    | none => none
    | some s1 => writeData s1 slot_id bytes
  else none

/-- `Leaf::insert`. -/
def leafInsert (s : Slotted) (slot_id : Nat) (key value : List Nat) : Option Slotted :=
  insertRaw s slot_id (pair.to_bytes key value)

/-- `Leaf::transfer` / `Branch::transfer`: move the front pair of `self`
to the back of `dest`. -/
def transfer (self dest : Slotted) : Option (Slotted × Slotted) :=
  match self.pointers[0]? with
  | none => none
  | some p0 =>
    match slotted.insert dest (num_slots dest) p0.len with
    | none => none
    | some d1 =>
      match writeData d1 (num_slots dest) (dataAt self 0) with
      | none => none
      | some d2 =>
        match slotted.remove self 0 with
        | none => none
        | some s1 => some (s1, d2)

theorem resize_num_slots (s : Slotted) (i l : Nat) (s' : Slotted)
    (h : resize s i l = some s') : s'.pointers.length = s.pointers.length := by
  unfold resize at h
  cases hp : s.pointers[i]? with
  | none => rw [hp] at h; cases h
  | some p =>
    rw [hp] at h
    dsimp only at h
    split at h
    · injection h with h
      subst h
      rfl
    · split at h
      · cases h
      · injection h with h
        subst h
        simp [List.length_set, List.length_map]

theorem transfer_num_slots (self dest : Slotted) (s1 d2 : Slotted)
    (h : transfer self dest = some (s1, d2)) :
    num_slots s1 + 1 = num_slots self := by
  unfold transfer at h
  cases hp : self.pointers[0]? with
  | none => rw [hp] at h; cases h
  | some p0 =>
    rw [hp] at h
    dsimp only at h
    have h0 : 0 < self.pointers.length := by
      by_contra hc
      rw [List.getElem?_eq_none (by omega)] at hp
      cases hp
    cases h1 : slotted.insert dest (num_slots dest) p0.len with
    | none => rw [h1] at h; cases h
    | some d1 =>
      rw [h1] at h
      dsimp only at h
      cases h2 : writeData d1 (num_slots dest) (dataAt self 0) with
      | none => rw [h2] at h; cases h
      | some d2' =>
        rw [h2] at h
        dsimp only at h
        cases h3 : slotted.remove self 0 with
        | none => rw [h3] at h; cases h
        | some s1' =>
          rw [h3] at h
          dsimp only at h
          injection h with h
          obtain ⟨rfl, -⟩ := Prod.mk.inj h
          unfold remove at h3
          cases h4 : resize self 0 0 with
          | none => rw [h4] at h3; cases h3
          | some sr =>
            rw [h4] at h3
            injection h3 with h3
            subst h3
            have := resize_num_slots self 0 0 sr h4
            unfold num_slots
            dsimp only
            rw [List.length_eraseIdx]
            simp only [this]
            simp [h0]
            omega

/-- The inner `while !new.is_half_full() { self.transfer(new) }` loop of
`split_insert`. -/
def transferLoop (self new : Slotted) : Option (Slotted × Slotted) :=
  if 2 * free_space new < capacity new then some (self, new)
  else
    match h : transfer self new with
    | none => none
    | some (s1, n1) => transferLoop s1 n1
termination_by num_slots self
decreasing_by
  have := transfer_num_slots self new s1 n1 h
  omega

/-- The main loop of `Leaf::split_insert` / `Branch::split_insert` over
the slotted bodies, after the new sibling has been initialised.
`pair_bytes` is the serialized new pair and `new_key` its key. -/
def splitLoopGo (self new : Slotted) (pair_bytes new_key : List Nat) :
    Option (Slotted × Slotted) :=
  if 2 * free_space new < capacity new then
    match search_slot_id self new_key with
    | .ok _ => none
    | .error idx =>
      match insertRaw self idx pair_bytes with
      | none => none
      | some s1 => some (s1, new)
  else
    match self.pointers[0]? with
    | none => none
    | some _ =>
      if lexCmp (keyAt self 0) new_key = .lt then
        match h : transfer self new with
        | none => none
        | some (s1, n1) => splitLoopGo s1 n1 pair_bytes new_key
      else
        match insertRaw new (num_slots new) pair_bytes with
        | none => none
        | some n1 => transferLoop self n1
termination_by num_slots self
decreasing_by
  have := transfer_num_slots self new s1 n1 h
  omega

/-- `Leaf::split_insert`: initialise the new (left) sibling, run the
split loop, and promote the first remaining key of the original leaf. -/
def leafSplitInsert (self new : Slotted) (new_key new_value : List Nat) :
    Option (List Nat × Slotted × Slotted) :=
  match splitLoopGo self (initSlotted new) (pair.to_bytes new_key new_value) new_key with
  | none => none
  | some (s1, n1) =>
    match pair.from_bytes (dataAt s1 0) with
    | none => none
    | some (k, _) => some (k, s1, n1)

theorem transferLoopHF (m : Nat) :
    ∀ self new s' n', num_slots self ≤ m →
      transferLoop self new = some (s', n') → 2 * free_space n' < capacity n' := by
  induction m with
  | zero =>
    intro self new s' n' hm h
    rw [transferLoop] at h
    split at h
    · next hhalf =>
      injection h with h
      obtain ⟨h1, h2⟩ := Prod.mk.inj h
      subst h1
      subst h2
      exact hhalf
    · split at h
      · cases h
      · next s1 n1 heq =>
        have := transfer_num_slots _ _ _ _ heq
        omega
  | succ k ih =>
    intro self new s' n' hm h
    rw [transferLoop] at h
    split at h
    · next hhalf =>
      injection h with h
      obtain ⟨h1, h2⟩ := Prod.mk.inj h
      subst h1
      subst h2
      exact hhalf
    · split at h
      · cases h
      · next s1 n1 heq =>
        have := transfer_num_slots _ _ _ _ heq
        exact ih s1 n1 s' n' (by omega) h

theorem transferLoop_half_full (self new s' n' : Slotted)
    (h : transferLoop self new = some (s', n')) :
    2 * free_space n' < capacity n' :=
  transferLoopHF (num_slots self) self new s' n' le_rfl h

theorem splitLoopGoHF (m : Nat) :
    ∀ self new pb k s' n', num_slots self ≤ m →
      splitLoopGo self new pb k = some (s', n') →
      2 * free_space n' < capacity n' := by
  induction m with
  | zero =>
    intro self new pb k s' n' hm h
    rw [splitLoopGo] at h
    split at h
    · next hhalf =>
      split at h
      · cases h
      · split at h
        · cases h
        · injection h with h
          obtain ⟨h1, h2⟩ := Prod.mk.inj h
          subst h1
          subst h2
          exact hhalf
    · split at h
      · cases h
      · split at h
        · split at h
          · cases h
          · next s1 n1 heq =>
            have := transfer_num_slots _ _ _ _ heq
            omega
        · split at h
          · cases h
          · exact transferLoop_half_full self _ s' n' h
  | succ j ih =>
    intro self new pb k s' n' hm h
    rw [splitLoopGo] at h
    split at h
    · next hhalf =>
      split at h
      · cases h
      · split at h
        · cases h
        · injection h with h
          obtain ⟨h1, h2⟩ := Prod.mk.inj h
          subst h1
          subst h2
          exact hhalf
    · split at h
      · cases h
      · split at h
        · split at h
          · cases h
          · next s1 n1 heq =>
            have := transfer_num_slots _ _ _ _ heq
            exact ih s1 n1 pb k s' n' (by omega) h
        · split at h
          · cases h
          · exact transferLoop_half_full self _ s' n' h

theorem splitLoopGo_half_full (self new : Slotted) (pb k : List Nat)
    (s' n' : Slotted) (h : splitLoopGo self new pb k = some (s', n')) :
    2 * free_space n' < capacity n' :=
  splitLoopGoHF (num_slots self) self new pb k s' n' le_rfl h

theorem leafSplitInsert_post (self new : Slotted) (k v : List Nat) :
    ∀ pk s' n', leafSplitInsert self new k v = some (pk, s', n') →
      2 * free_space n' < capacity n' ∧ 0 < num_slots s' := by
  intro pk s' n' h
  unfold leafSplitInsert at h
  cases hs : splitLoopGo self (initSlotted new) (pair.to_bytes k v) k with
  | none => rw [hs] at h; cases h
  | some q =>
    obtain ⟨s1, n1⟩ := q
    rw [hs] at h
    dsimp only at h
    cases hp : pair.from_bytes (dataAt s1 0) with
    | none => rw [hp] at h; cases h
    | some kv =>
      rw [hp] at h
      dsimp only at h
      injection h with h
      obtain ⟨h1, h2⟩ := Prod.mk.inj h
      obtain ⟨h2, h3⟩ := Prod.mk.inj h2
      have hhalf := splitLoopGo_half_full self (initSlotted new) (pair.to_bytes k v) k s1 n1 hs
      rw [h3] at hhalf
      refine ⟨hhalf, ?_⟩
      rw [← h2]
      by_contra hc
      have hz : s1.pointers[0]? = none :=
        List.getElem?_eq_none (by unfold num_slots at hc; omega)
      rw [dataAt, hz] at hp
      cases hp

/-! The C2 counterexample: a 24-byte leaf body holding two 6-byte pairs
(keys `[2,0]` and `[3,0]`).  A third pair (key `[1,0]`, 6 bytes, within
`max_pair_size = 8`) does not fit, so `insert` fails; `split_insert`
moves the new pair and the first old pair into the new sibling and
stops as soon as the NEW node is half-full, leaving the original node
with a single pair and `2 * free_space = 28 ≥ 24 = capacity`. -/

def c2s0 : Slotted :=
  ⟨[⟨18, 6⟩, ⟨12, 6⟩],
   List.replicate 12 0 ++ [2, 3, 0, 2, 8, 8] ++ [2, 2, 0, 2, 9, 9], 12⟩

def c2new : Slotted := ⟨[], List.replicate 24 0, 24⟩

def c2n1 : Slotted :=
  ⟨[⟨18, 6⟩], List.replicate 18 0 ++ [2, 1, 0, 2, 7, 7], 18⟩

def c2selfR : Slotted :=
  ⟨[⟨18, 6⟩],
   List.replicate 12 0 ++ [2, 3, 0, 2, 8, 8] ++ [2, 3, 0, 2, 8, 8], 18⟩

def c2newR : Slotted :=
  ⟨[⟨18, 6⟩, ⟨12, 6⟩],
   List.replicate 12 0 ++ [2, 2, 0, 2, 9, 9] ++ [2, 1, 0, 2, 7, 7], 12⟩

theorem c2_run_split :
    splitLoopGo c2s0 c2new (pair.to_bytes [1, 0] [7, 7]) [1, 0] =
      some (c2selfR, c2newR) := by
  rw [splitLoopGo]
  split
  · next hhalf => exact absurd hhalf (by decide)
  · split
    · next hnone => exact absurd hnone (by decide)
    · split
      · next hlt => exact absurd hlt (by decide)
      · split
        · next hins =>
          exact absurd hins (by decide)
        · next n1 hins =>
          have h2 : insertRaw c2new (num_slots c2new) (pair.to_bytes [1, 0] [7, 7]) =
              some c2n1 := by decide
          rw [hins] at h2
          injection h2 with h2
          subst h2
          rw [transferLoop]
          split
          · next hhalf => exact absurd hhalf (by decide)
          · split
            · next htr =>
              exact absurd htr (by decide)
            · next s1 nn1 htr =>
              have h3 : transfer c2s0 c2n1 = some (c2selfR, c2newR) := by decide
              rw [htr] at h3
              injection h3 with h3
              obtain ⟨h4, h5⟩ := Prod.mk.inj h3
              subst h4
              subst h5
              rw [transferLoop]
              rw [if_pos (by decide)]

theorem c2_run :
    leafSplitInsert c2s0 c2new [1, 0] [7, 7] = some ([3, 0], c2selfR, c2newR) := by
  unfold leafSplitInsert
  have hinit : initSlotted c2new = c2new := by decide
  rw [hinit, c2_run_split]
  decide

end node

/-- C2: the claim that BOTH nodes are at least half-full after
`split_insert` is false: the split loop stops as soon as the NEW
sibling is half-full, leaving the original node possibly below half.
`c2s0` is a 24-byte leaf on which inserting the 6-byte pair
`([1,0], [7,7])` (within `max_pair_size`, key absent and below all
stored keys, which are strictly ascending) fails for lack of space,
yet after `split_insert` the original node holds one 6-byte pair:
`2 * free_space = 28 ≥ 24 = capacity`. -/
theorem c2_counterexample :
    node.leafInsert node.c2s0 0 [1, 0] [7, 7] = none ∧
    (pair.to_bytes [1, 0] [7, 7]).length ≤ node.max_pair_size node.c2s0 ∧
    lexCmp [1, 0] (node.keyAt node.c2s0 0) = Ordering.lt ∧
    lexCmp (node.keyAt node.c2s0 0) (node.keyAt node.c2s0 1) = Ordering.lt ∧
    node.leafSplitInsert node.c2s0 node.c2new [1, 0] [7, 7] =
      some ([3, 0], node.c2selfR, node.c2newR) ∧
    ¬ 2 * slotted.free_space node.c2selfR < slotted.capacity node.c2selfR :=
  ⟨by decide, by decide, by decide, by decide, node.c2_run, by decide⟩

/-- C2 (amended): after any successful run of the `split_insert` loop
the NEW sibling is half-full (`2 * free_space < capacity`), and a
successful `Leaf::split_insert` additionally leaves the original leaf
nonempty (its first key is promoted); the original node need not be
half-full. -/
theorem c2_split_half_full :
    (∀ self new pb k s' n', node.splitLoopGo self new pb k = some (s', n') →
      2 * slotted.free_space n' < slotted.capacity n') ∧
    (∀ self new k v pk s' n',
      node.leafSplitInsert self new k v = some (pk, s', n') →
      2 * slotted.free_space n' < slotted.capacity n' ∧ 0 < slotted.num_slots s') :=
  ⟨fun self new pb k s' n' h => node.splitLoopGo_half_full self new pb k s' n' h,
   fun self new k v pk s' n' h => node.leafSplitInsert_post self new k v pk s' n' h⟩

/-- C2 witness: both parts of the amended theorem applied to the
concrete split of the counterexample leaf. -/
theorem c2_split_half_full_witness :
    (2 * slotted.free_space node.c2newR < slotted.capacity node.c2newR) ∧
    (2 * slotted.free_space node.c2newR < slotted.capacity node.c2newR ∧
      0 < slotted.num_slots node.c2selfR) :=
  ⟨c2_split_half_full.1 node.c2s0 node.c2new (pair.to_bytes [1, 0] [7, 7]) [1, 0]
      node.c2selfR node.c2newR node.c2_run_split,
   c2_split_half_full.2 node.c2s0 node.c2new [1, 0] [7, 7] [3, 0]
      node.c2selfR node.c2newR node.c2_run⟩

theorem ordThen_eq_lt (x y : Ordering) :
    x.then y = .lt ↔ x = .lt ∨ (x = .eq ∧ y = .lt) := by
  cases x <;> simp [Ordering.then]

theorem lexCmp_eq_eq : ∀ a b : List Nat, lexCmp a b = .eq ↔ a = b
  | [], [] => by simp [lexCmp]
  | [], _ :: _ => by simp [lexCmp]
  | _ :: _, [] => by simp [lexCmp]
  | a :: as, b :: bs => by
    show (compare a b).then (lexCmp as bs) = .eq ↔ _
    constructor
    · intro h
      cases hc : compare a b with
      | lt => rw [hc] at h; cases h
      | gt => rw [hc] at h; cases h
      | eq =>
        rw [hc] at h
        have hab : a = b := Nat.compare_eq_eq.mp hc
        have := (lexCmp_eq_eq as bs).mp h
        rw [hab, this]
    · intro h
      injection h with h1 h2
      rw [h1, natCompare_self]
      exact (lexCmp_eq_eq as bs).mpr h2

theorem lexCmp_trans_lt :
    ∀ a b c : List Nat, lexCmp a b = .lt → lexCmp b c = .lt → lexCmp a c = .lt
  | [], [], _ => fun h _ => by cases h
  | [], _ :: _, [] => fun _ h => by cases h
  | [], _ :: _, _ :: _ => fun _ _ => rfl
  | _ :: _, [], _ => fun h _ => by cases h
  | _ :: _, _ :: _, [] => fun _ h => by cases h
  | a :: as, b :: bs, c :: cs => by
    intro hab hbc
    have hab' := (ordThen_eq_lt (compare a b) (lexCmp as bs)).mp hab
    have hbc' := (ordThen_eq_lt (compare b c) (lexCmp bs cs)).mp hbc
    show (compare a c).then (lexCmp as cs) = .lt
    rcases hab' with h1 | ⟨h1, h1'⟩ <;> rcases hbc' with h2 | ⟨h2, h2'⟩
    · rw [natCompare_lt (Nat.lt_trans (Nat.compare_eq_lt.mp h1) (Nat.compare_eq_lt.mp h2))]
      rfl
    · rw [← Nat.compare_eq_eq.mp h2, h1]
      rfl
    · rw [Nat.compare_eq_eq.mp h1, h2]
      rfl
    · rw [Nat.compare_eq_eq.mp h1, h2,
        lexCmp_trans_lt as bs cs h1' h2']
      rfl

theorem lexCmp_gt_iff_lt (a b : List Nat) : lexCmp a b = .gt ↔ lexCmp b a = .lt := by
  rw [lexCmp_swap a b]
  cases h : lexCmp a b <;> simp [Ordering.swap]

/-! ## Branch nodes (`src/btree/branch.rs`)

A branch is a header holding `right_child : PageId` plus a slotted body
of pairs whose values are little-endian `u64` page ids. -/

namespace branch

open slotted

structure Branch where
  right_child : Nat
  body : Slotted

/-- `Branch::num_pairs`. -/
def num_pairs (b : Branch) : Nat := num_slots b.body

/-- `Branch::search_slot_id`: binary search over the pair keys. -/
def search_slot_id (b : Branch) (key : List Nat) : Except Nat Nat :=
  binary_search_by (num_pairs b) fun i => lexCmp (node.keyAt b.body i) key

/-- `Branch::search_child_idx`. -/
def search_child_idx (b : Branch) (key : List Nat) : Nat :=
  match search_slot_id b key with
  | .ok slot_id => slot_id + 1
  | .error slot_id => slot_id

/-- `PageId::from` on the 8 little-endian value bytes (zerocopy
`FromBytes` on a little-endian machine). -/
def pageIdFrom (bs : List Nat) : Nat := bs.foldr (fun x acc => x + 256 * acc) 0

/-- `pair_at(i).value`, defaulting like `node.keyAt`. -/
def valueAt (b : Branch) (i : Nat) : List Nat :=
  ((pair.from_bytes (dataAt b.body i)).map Prod.snd).getD []

/-- `Branch::child_at`. -/
def child_at (b : Branch) (child_idx : Nat) : Nat :=
  if child_idx = num_pairs b then b.right_child
  else pageIdFrom (valueAt b child_idx)

/-- `Branch::search_child`. -/
def search_child (b : Branch) (key : List Nat) : Nat :=
  child_at b (search_child_idx b key)

/-- Slot keys strictly ascending (decidable bounded form). -/
def strictAsc (b : Branch) : Prop :=
  ∀ i < num_pairs b, ∀ j < num_pairs b, i < j →
    lexCmp (node.keyAt b.body i) (node.keyAt b.body j) = .lt

instance (b : Branch) : Decidable (strictAsc b) := by
  unfold strictAsc
  exact Nat.decidableBallLT _ _

end branch

/-- C8: on a branch with strictly ascending slot keys,
`search_child_idx` is `i+1` on `Ok i` and `i` on `Err i`; the returned
index is the least slot whose key is strictly greater than the query
key (every earlier slot key is `≤` the query, every slot from the index
on is `>` it), `search_child` returns that slot's page id, and returns
`right_child` when the index runs past the last slot, i.e. when the
query is `≥` every slot key. -/
theorem c8_search_child (b : branch.Branch) (k : List Nat) (hasc : branch.strictAsc b) :
    (∀ i, branch.search_slot_id b k = .ok i → branch.search_child_idx b k = i + 1) ∧
    (∀ i, branch.search_slot_id b k = .error i → branch.search_child_idx b k = i) ∧
    branch.search_child_idx b k ≤ branch.num_pairs b ∧
    (∀ j, j < branch.search_child_idx b k →
      lexCmp (node.keyAt b.body j) k ≠ .gt) ∧
    (∀ j, branch.search_child_idx b k ≤ j → j < branch.num_pairs b →
      lexCmp k (node.keyAt b.body j) = .lt) ∧
    (branch.search_child_idx b k < branch.num_pairs b →
      branch.search_child b k =
        branch.pageIdFrom (branch.valueAt b (branch.search_child_idx b k))) ∧
    (branch.search_child_idx b k = branch.num_pairs b →
      branch.search_child b k = b.right_child) := by
  have hlt : ∀ i j, i ≤ j → j < branch.num_pairs b →
      lexCmp (node.keyAt b.body j) k = .lt →
      lexCmp (node.keyAt b.body i) k = .lt := by
    intro i j hij hj h
    rcases Nat.eq_or_lt_of_le hij with rfl | hij'
    · exact h
    · exact lexCmp_trans_lt _ _ _ (hasc i (by omega) j hj hij') h
  have hgt : ∀ i j, i ≤ j → j < branch.num_pairs b →
      lexCmp (node.keyAt b.body i) k = .gt →
      lexCmp (node.keyAt b.body j) k = .gt := by
    intro i j hij hj h
    rcases Nat.eq_or_lt_of_le hij with rfl | hij'
    · exact h
    · have h1 : lexCmp k (node.keyAt b.body i) = .lt := (lexCmp_gt_iff_lt _ _).mp h
      have h2 := hasc i (by omega) j hj hij'
      exact (lexCmp_gt_iff_lt _ _).mpr (lexCmp_trans_lt _ _ _ h1 h2)
  have spec := binary_search_by_spec
    (fun i => lexCmp (node.keyAt b.body i) k) (branch.num_pairs b) hlt hgt
  refine ⟨?_, ?_, ?_, ?_, ?_, ?_, ?_⟩
  · intro i h
    unfold branch.search_child_idx
    rw [h]
  · intro i h
    unfold branch.search_child_idx
    rw [h]
  · unfold branch.search_child_idx
    cases hs : branch.search_slot_id b k with
    | ok i =>
      have h1 : i < branch.num_pairs b := (spec.1 i hs).1
      dsimp only
      omega
    | error i =>
      have h1 : i ≤ branch.num_pairs b := (spec.2 i hs).1
      dsimp only
      omega
  · intro j hj
    unfold branch.search_child_idx at hj
    cases hs : branch.search_slot_id b k with
    | ok i =>
      rw [hs] at hj
      dsimp only at hj
      have hin : i < branch.num_pairs b := (spec.1 i hs).1
      have heq : lexCmp (node.keyAt b.body i) k = .eq := (spec.1 i hs).2
      intro hg
      have hcontra := hgt j i (by omega) hin hg
      rw [heq] at hcontra
      cases hcontra
    | error i =>
      rw [hs] at hj
      dsimp only at hj
      have hl : lexCmp (node.keyAt b.body j) k = .lt := (spec.2 i hs).2.1 j hj
      rw [hl]
      intro hc
      cases hc
  · intro j hj hjn
    unfold branch.search_child_idx at hj
    cases hs : branch.search_slot_id b k with
    | ok i =>
      rw [hs] at hj
      dsimp only at hj
      have hin : i < branch.num_pairs b := (spec.1 i hs).1
      have heq : lexCmp (node.keyAt b.body i) k = .eq := (spec.1 i hs).2
      have hk : node.keyAt b.body i = k := (lexCmp_eq_eq _ _).mp heq
      rw [← hk]
      exact hasc i (by omega) j hjn (by omega)
    | error i =>
      rw [hs] at hj
      dsimp only at hj
      have hg : lexCmp (node.keyAt b.body j) k = .gt := (spec.2 i hs).2.2 j hj hjn
      exact (lexCmp_gt_iff_lt _ _).mp hg
  · intro h
    unfold branch.search_child branch.child_at
    rw [if_neg (by omega)]
  · intro h
    unfold branch.search_child branch.child_at
    rw [if_pos h]

/-! The C8 witness branch: two 12-byte pairs (2-byte keys `[1,0]` and
`[3,0]`, 8-byte little-endian page-id values 7 and 9) in a 40-byte
body, `right_child = 11`. -/

def c8b : branch.Branch :=
  ⟨11,
   ⟨[⟨28, 12⟩, ⟨16, 12⟩],
    List.replicate 16 0 ++
      ([2, 3, 0, 8] ++ [9, 0, 0, 0, 0, 0, 0, 0]) ++
      ([2, 1, 0, 8] ++ [7, 0, 0, 0, 0, 0, 0, 0]), 16⟩⟩

/-- C8 witness: the search theorem applied to a concrete two-pair
branch with ascending keys. -/
theorem c8_search_child_witness :
    branch.strictAsc c8b ∧
    ((∀ i, branch.search_slot_id c8b [2, 0] = .ok i →
        branch.search_child_idx c8b [2, 0] = i + 1) ∧
     (∀ i, branch.search_slot_id c8b [2, 0] = .error i →
        branch.search_child_idx c8b [2, 0] = i) ∧
     branch.search_child_idx c8b [2, 0] ≤ branch.num_pairs c8b ∧
     (∀ j, j < branch.search_child_idx c8b [2, 0] →
        lexCmp (node.keyAt c8b.body j) [2, 0] ≠ .gt) ∧
     (∀ j, branch.search_child_idx c8b [2, 0] ≤ j → j < branch.num_pairs c8b →
        lexCmp [2, 0] (node.keyAt c8b.body j) = .lt) ∧
     (branch.search_child_idx c8b [2, 0] < branch.num_pairs c8b →
        branch.search_child c8b [2, 0] =
          branch.pageIdFrom (branch.valueAt c8b (branch.search_child_idx c8b [2, 0]))) ∧
     (branch.search_child_idx c8b [2, 0] = branch.num_pairs c8b →
        branch.search_child c8b [2, 0] = c8b.right_child)) :=
  ⟨by decide, c8_search_child c8b [2, 0] (by decide)⟩

/-! ## Buffer pool (`src/buffer.rs`)

A frame holds its clock-sweep `usage_count` and an `Rc<Buffer>`;
`pinned` models `Rc::get_mut(&mut frame.buffer).is_none()`, i.e. a
handle to the buffer being held outside the pool.  The buffer's fields
(`page_id`, `page`, `is_dirty`) are inlined into the frame.  Disk
writes are returned as a log of `(page_id, page)` pairs, and
`read_page_data` is a function from page ids to page bytes. -/

namespace buffer

structure Frame where
  usage_count : Nat
  pinned : Bool
  page_id : Nat
  page : List Nat
  is_dirty : Bool
deriving DecidableEq

structure BufferPool where
  buffers : List Frame
  next_victim_id : Nat
deriving DecidableEq

def sumUsage (bufs : List Frame) : Nat := (bufs.map Frame.usage_count).sum

def pinnedAt (bufs : List Frame) (i : Nat) : Bool :=
  ((bufs[i]?).map Frame.pinned).getD true

def usageAt (bufs : List Frame) (i : Nat) : Nat :=
  ((bufs[i]?).map Frame.usage_count).getD 1

/-- All frames' buffers are referenced from outside the pool. -/
def allPinned (bufs : List Frame) : Prop :=
  ∀ i, i < bufs.length → pinnedAt bufs i = true

instance (bufs : List Frame) : Decidable (allPinned bufs) :=
  Nat.decidableBallLT _ _

/-- Reachable-state invariant: a pinned frame has a positive usage
count (`fetch_page`/`create_page` set `usage_count = 1` while handing
out the `Rc`, and the clock sweep cannot decrement a pinned frame to
zero without first observing it unpinned). -/
def pinv (bufs : List Frame) : Prop :=
  ∀ i, i < bufs.length → pinnedAt bufs i = true → 1 ≤ usageAt bufs i

instance (bufs : List Frame) : Decidable (pinv bufs) :=
  Nat.decidableBallLT _ _

theorem sumUsage_set (bufs : List Frame) :
    ∀ (i : Nat) (f g : Frame), bufs[i]? = some f →
      sumUsage (bufs.set i g) + f.usage_count = sumUsage bufs + g.usage_count := by
  induction bufs with
  | nil => intro i f g h; cases h
  | cons b bs ih =>
    intro i f g h
    cases i with
    | zero =>
      rw [List.getElem?_cons_zero] at h
      injection h with h
      subst h
      simp only [List.set, sumUsage, List.map_cons, List.sum_cons]
      omega
    | succ j =>
      rw [List.getElem?_cons_succ] at h
      have := ih j f g h
      simp only [List.set, sumUsage, List.map_cons, List.sum_cons]
      unfold sumUsage at this
      omega

/-- The clock-sweep loop of `BufferPool::evict`, returning the updated
frames, the final `next_victim_id`, and the victim (or `None` after
`pool_size` consecutive pinned frames). -/
def evictGo (bufs : List Frame) (next consec : Nat) :
    (List Frame × Nat) × Option Nat :=
  match hb : bufs[next]? with
  | none => ((bufs, next), none)
  | some f =>
    if f.usage_count = 0 then ((bufs, next), some next)
    else if f.pinned = false then
      evictGo (bufs.set next { f with usage_count := f.usage_count - 1 })
        ((next + 1) % bufs.length) 0
    else if h2 : bufs.length ≤ consec + 1 then ((bufs, next), none)
    else evictGo bufs ((next + 1) % bufs.length) (consec + 1)
termination_by sumUsage bufs * (bufs.length + 1) + (bufs.length - consec)
decreasing_by
  · have hs := sumUsage_set bufs next f { f with usage_count := f.usage_count - 1 } hb
    have hlen : next < bufs.length := by
      by_contra hc
      rw [List.getElem?_eq_none (by omega)] at hb
      cases hb
    simp only [List.length_set]
    have hu : f.usage_count ≠ 0 := by assumption
    have h1 : sumUsage (bufs.set next { f with usage_count := f.usage_count - 1 }) + 1 =
        sumUsage bufs := by
      dsimp only at hs
      omega
    have h3 : 1 ≤ sumUsage bufs := by omega
    have := Nat.sub_le bufs.length consec
    nlinarith [Nat.sub_le bufs.length 0]
  · omega

/-- `BufferPool::evict`. -/
def evict (p : BufferPool) : BufferPool × Option Nat :=
  let r := evictGo p.buffers p.next_victim_id 0
  (⟨r.1.1, r.1.2⟩, r.2)

structure Manager where
  pool : BufferPool
  page_table : List (Nat × Nat)

/-- `BufferPoolManager::fetch_page` (with `dsk` standing for
`read_page_data` and the returned list logging `write_page_data`
calls). -/
def fetch_page (m : Manager) (dsk : Nat → List Nat) (pid : Nat) :
    Option (Manager × List (Nat × List Nat)) :=
  match m.page_table.find? (fun e => e.1 = pid) with
  | some e =>
    match m.pool.buffers[e.2]? with
    | none => none
    | some f =>
      some (⟨⟨m.pool.buffers.set e.2 { f with usage_count := f.usage_count + 1 },
              m.pool.next_victim_id⟩, m.page_table⟩, [])
  | none =>
    match evict m.pool with
    | (_, none) => none
    | (p1, some vid) =>
      match p1.buffers[vid]? with
      | none => none
      | some f =>
        if f.pinned then none
        else
          some (⟨⟨p1.buffers.set vid ⟨1, f.pinned, pid, dsk pid, false⟩,
                  p1.next_victim_id⟩,
                 (pid, vid) :: m.page_table.filter (fun e => ¬ e.1 = f.page_id)⟩,
                if f.is_dirty then [(f.page_id, f.page)] else [])

/-- `BufferPoolManager::create_page`: `new_pid` is the page id handed
out by `DiskManager::allocate_page`, `psize` is `PAGE_SIZE`. -/
def create_page (m : Manager) (new_pid psize : Nat) :
    Option (Manager × List (Nat × List Nat)) :=
  match evict m.pool with
  | (_, none) => none
  | (p1, some vid) =>
    match p1.buffers[vid]? with
    | none => none
    | some f =>
      if f.pinned then none
      else
        some (⟨⟨p1.buffers.set vid ⟨1, f.pinned, new_pid, List.replicate psize 0, true⟩,
                p1.next_victim_id⟩,
               (new_pid, vid) :: m.page_table.filter (fun e => ¬ e.1 = f.page_id)⟩,
              if f.is_dirty then [(f.page_id, f.page)] else [])

theorem measure_dec (S L consec m : Nat) (hc : consec < L) (hS : 1 ≤ S)
    (h : S * (L + 1) + (L - consec) ≤ m) :
    (S - 1) * (L + 1) + (L - 0) ≤ m - 1 := by
  have h1 : S * (L + 1) = (S - 1) * (L + 1) + (L + 1) := by
    cases S with
    | zero => omega
    | succ s => rw [Nat.succ_sub_one, Nat.succ_mul]
  set A := (S - 1) * (L + 1) with hA
  set B := S * (L + 1) with hB
  omega

theorem measure_inc (S L consec m : Nat) (hc : consec + 1 < L)
    (h : S * (L + 1) + (L - consec) ≤ m) :
    S * (L + 1) + (L - (consec + 1)) ≤ m - 1 := by
  set B := S * (L + 1) with hB
  omega

theorem pinnedAt_set (bufs : List Frame) (i j : Nat) (f g : Frame)
    (hb : bufs[i]? = some f) (hpg : g.pinned = f.pinned) :
    pinnedAt (bufs.set i g) j = pinnedAt bufs j := by
  have hi : i < bufs.length := by
    by_contra hc
    rw [List.getElem?_eq_none (by omega)] at hb
    cases hb
  unfold pinnedAt
  rcases eq_or_ne j i with rfl | hne
  · rw [List.getElem?_set_eq_of_lt _ hi, hb]
    simp [hpg]
  · rw [List.getElem?_set_ne (fun hc => hne hc.symm)]

theorem pinv_set (bufs : List Frame) (i : Nat) (f g : Frame)
    (hb : bufs[i]? = some f) (hpg : g.pinned = f.pinned)
    (hgi : g.pinned = true → 1 ≤ g.usage_count) (h : pinv bufs) :
    pinv (bufs.set i g) := by
  have hi : i < bufs.length := by
    by_contra hc
    rw [List.getElem?_eq_none (by omega)] at hb
    cases hb
  intro j hj hpj
  rw [List.length_set] at hj
  rcases eq_or_ne j i with rfl | hne
  · unfold pinnedAt at hpj
    rw [List.getElem?_set_eq_of_lt _ hi] at hpj
    unfold usageAt
    rw [List.getElem?_set_eq_of_lt _ hi]
    simp only [Option.map_some', Option.getD_some] at hpj ⊢
    exact hgi hpj
  · unfold pinnedAt at hpj
    rw [List.getElem?_set_ne (fun hc => hne hc.symm)] at hpj
    unfold usageAt
    rw [List.getElem?_set_ne (fun hc => hne hc.symm)]
    exact h j hj hpj

/-- If the clock sweep returns `None`, every frame was pinned: the
`consecutive_pinned` counter certifies that the last `pool_size`
probes, which cover every index, all saw a pinned frame. -/
theorem evictGoNoneHF (m : Nat) : ∀ bufs next consec,
    next < bufs.length → consec < bufs.length →
    (∀ d, d < consec →
      pinnedAt bufs ((next + bufs.length - 1 - d) % bufs.length) = true) →
    pinv bufs →
    sumUsage bufs * (bufs.length + 1) + (bufs.length - consec) ≤ m →
    (evictGo bufs next consec).2 = none →
    ∀ i, i < bufs.length → pinnedAt bufs i = true := by
  induction m with
  | zero =>
    intro bufs next consec hn hc _ _ hm _
    exfalso
    set B := sumUsage bufs * (bufs.length + 1) with hB
    omega
  | succ k ih =>
    intro bufs next consec hn hc hcons hpinv hm hnone
    rw [evictGo] at hnone
    split at hnone
    · next hb =>
      rw [List.getElem?_eq_getElem hn] at hb
      cases hb
    · next f hb =>
      split at hnone
      · dsimp only at hnone
        cases hnone
      · next hu =>
        split at hnone
        · next hpf =>
          -- unpinned: the frame is decremented and the sweep moves on;
          -- a None result would make every frame of the updated pool
          -- pinned, contradicting this frame being unpinned.
          exfalso
          have hL : 0 < bufs.length := by omega
          have hsum := sumUsage_set bufs next f
            { f with usage_count := f.usage_count - 1 } hb
          dsimp only at hsum
          have hall := ih (bufs.set next { f with usage_count := f.usage_count - 1 })
            ((next + 1) % bufs.length) 0
            (by rw [List.length_set]; exact Nat.mod_lt _ hL)
            (by rw [List.length_set]; omega)
            (fun d hd => absurd hd (Nat.not_lt_zero d))
            (pinv_set bufs next f _ hb rfl (by intro h; rw [hpf] at h; cases h) hpinv)
            (by
              rw [List.length_set]
              have hs' : sumUsage (bufs.set next
                  { f with usage_count := f.usage_count - 1 }) =
                  sumUsage bufs - 1 := by omega
              rw [hs']
              have hd := measure_dec (sumUsage bufs) bufs.length consec (k + 1) hc
                (by omega) hm
              omega)
            hnone
          have hpin := hall next (by rw [List.length_set]; omega)
          rw [pinnedAt_set bufs next next f
            { f with usage_count := f.usage_count - 1 } hb rfl] at hpin
          unfold pinnedAt at hpin
          rw [hb] at hpin
          simp only [Option.map_some', Option.getD_some] at hpin
          rw [hpin] at hpf
          cases hpf
        · next hpf =>
          have hp : f.pinned = true := by
            revert hpf
            cases f.pinned <;> simp
          split at hnone
          · next hL =>
            -- consecutive_pinned reached pool_size: coverage argument.
            intro i hi
            rcases eq_or_ne i next with rfl | hne
            · unfold pinnedAt
              rw [hb]
              simp [hp]
            · rcases Nat.lt_or_ge i next with hlt | hge
              · have hd := hcons (next - i - 1) (by omega)
                have harg : next + bufs.length - 1 - (next - i - 1) =
                    bufs.length + i := by omega
                rw [harg, Nat.add_mod_left, Nat.mod_eq_of_lt hi] at hd
                exact hd
              · have hgt : next < i := by omega
                have hd := hcons (next + bufs.length - 1 - i) (by omega)
                have harg : next + bufs.length - 1 -
                    (next + bufs.length - 1 - i) = i := by omega
                rw [harg, Nat.mod_eq_of_lt hi] at hd
                exact hd
          · next hL =>
            exact ih bufs ((next + 1) % bufs.length) (consec + 1)
              (Nat.mod_lt _ (by omega)) (by omega)
              (by
                intro d hd
                rcases Nat.eq_zero_or_pos d with rfl | hdpos
                · have h1 : (next + 1) % bufs.length + bufs.length - 1 - 0 =
                      (next + 1) % bufs.length + (bufs.length - 1) := by omega
                  rw [h1, Nat.mod_add_mod]
                  have h2 : next + 1 + (bufs.length - 1) = next + bufs.length := by
                    omega
                  rw [h2, Nat.add_mod_right, Nat.mod_eq_of_lt hn]
                  unfold pinnedAt
                  rw [hb]
                  simp [hp]
                · have hdle : d ≤ bufs.length - 2 := by omega
                  have h1 : (next + 1) % bufs.length + bufs.length - 1 - d =
                      (next + 1) % bufs.length + (bufs.length - 1 - d) := by omega
                  rw [h1, Nat.mod_add_mod]
                  have h2 : next + 1 + (bufs.length - 1 - d) =
                      next + bufs.length - 1 - (d - 1) := by omega
                  rw [h2]
                  exact hcons (d - 1) (by omega))
              hpinv
              (measure_inc (sumUsage bufs) bufs.length consec (k + 1) (by omega) hm)
              hnone

/-- If every frame is pinned (hence, by the invariant, has positive
usage), the sweep returns `None` once `consecutive_pinned` reaches the
pool size. -/
theorem evictGoAllPinnedHF (c : Nat) : ∀ bufs next consec,
    next < bufs.length → allPinned bufs → pinv bufs →
    bufs.length - consec ≤ c →
    (evictGo bufs next consec).2 = none := by
  induction c with
  | zero =>
    intro bufs next consec hn hall hpinv hc
    rw [evictGo]
    have hu : usageAt bufs next = bufs[next].usage_count := by
      simp [usageAt, List.getElem?_eq_getElem hn]
    have hp : pinnedAt bufs next = bufs[next].pinned := by
      simp [pinnedAt, List.getElem?_eq_getElem hn]
    have hpin : bufs[next].pinned = true := by rw [← hp]; exact hall next hn
    have husage : 1 ≤ bufs[next].usage_count := by
      rw [← hu]
      exact hpinv next hn (by rw [hp]; exact hpin)
    rw [List.getElem?_eq_getElem hn]
    dsimp only
    rw [if_neg (by omega), if_neg (by simp [hpin]), dif_pos (by omega)]
  | succ j ih =>
    intro bufs next consec hn hall hpinv hc
    rw [evictGo]
    have hu : usageAt bufs next = bufs[next].usage_count := by
      simp [usageAt, List.getElem?_eq_getElem hn]
    have hp : pinnedAt bufs next = bufs[next].pinned := by
      simp [pinnedAt, List.getElem?_eq_getElem hn]
    have hpin : bufs[next].pinned = true := by rw [← hp]; exact hall next hn
    have husage : 1 ≤ bufs[next].usage_count := by
      rw [← hu]
      exact hpinv next hn (by rw [hp]; exact hpin)
    rw [List.getElem?_eq_getElem hn]
    dsimp only
    rw [if_neg (by omega), if_neg (by simp [hpin])]
    by_cases hL : bufs.length ≤ consec + 1
    · rw [dif_pos hL]
    · rw [dif_neg hL]
      exact ih bufs ((next + 1) % bufs.length) (consec + 1)
        (Nat.mod_lt _ (by omega)) hall hpinv (by omega)

/-- A successful sweep returns a frame whose usage count is zero
(hence, by the invariant, unpinned), in a pool of unchanged size. -/
theorem evictGoSomeHF (m : Nat) : ∀ bufs next consec bufs' next' vid,
    next < bufs.length → consec < bufs.length → pinv bufs →
    sumUsage bufs * (bufs.length + 1) + (bufs.length - consec) ≤ m →
    evictGo bufs next consec = ((bufs', next'), some vid) →
    vid < bufs'.length ∧ bufs'.length = bufs.length ∧
    usageAt bufs' vid = 0 ∧ pinnedAt bufs' vid = false := by
  induction m with
  | zero =>
    intro bufs next consec bufs' next' vid hn hc _ hm _
    exfalso
    set B := sumUsage bufs * (bufs.length + 1) with hB
    omega
  | succ k ih =>
    intro bufs next consec bufs' next' vid hn hc hpinv hm hsome
    rw [evictGo] at hsome
    split at hsome
    · next hb =>
      rw [List.getElem?_eq_getElem hn] at hb
      cases hb
    · next f hb =>
      split at hsome
      · next hu =>
        injection hsome with h1 h2
        injection h1 with h1a h1b
        injection h2 with h2
        subst h1a
        subst h1b
        subst h2
        refine ⟨hn, rfl, ?_, ?_⟩
        · unfold usageAt
          rw [hb]
          simpa using hu
        · have := hpinv next hn
          unfold pinnedAt usageAt at this
          unfold pinnedAt
          rw [hb] at this ⊢
          simp only [Option.map_some', Option.getD_some] at this ⊢
          cases hq : f.pinned
          · rfl
          · have := this hq
            omega
      · next hu =>
        split at hsome
        · next hpf =>
          have hL : 0 < bufs.length := by omega
          have hsum := sumUsage_set bufs next f
            { f with usage_count := f.usage_count - 1 } hb
          dsimp only at hsum
          exact (by
            have hres := ih (bufs.set next { f with usage_count := f.usage_count - 1 })
              ((next + 1) % bufs.length) 0 bufs' next' vid
              (by rw [List.length_set]; exact Nat.mod_lt _ hL)
              (by rw [List.length_set]; omega)
              (pinv_set bufs next f _ hb rfl (by intro h; rw [hpf] at h; cases h) hpinv)
              (by
                rw [List.length_set]
                have hs' : sumUsage (bufs.set next
                    { f with usage_count := f.usage_count - 1 }) =
                    sumUsage bufs - 1 := by omega
                rw [hs']
                have hd := measure_dec (sumUsage bufs) bufs.length consec (k + 1) hc
                  (by omega) hm
                omega)
              hsome
            rw [List.length_set] at hres
            exact hres)
        · next hpf =>
          split at hsome
          · next hL => cases hsome
          · next hL =>
            exact ih bufs ((next + 1) % bufs.length) (consec + 1) bufs' next' vid
              (Nat.mod_lt _ (by omega)) (by omega) hpinv
              (measure_inc (sumUsage bufs) bufs.length consec (k + 1) (by omega) hm)
              hsome

end buffer

/-- C6: in a pool where every pinned frame has positive usage count (the
reachable-state invariant) and the clock hand is in range, eviction
returns no victim exactly when every frame is pinned; `create_page` and
`fetch_page` (on a page-table miss) then fail with `NoFreeBuffer`
(`none`) exactly in that case.  When a victim is found its usage count
is zero and it is unpinned, and the victim's old page is written back
to disk exactly when its dirty flag is set. -/
theorem c6_buffer_eviction (p : buffer.BufferPool)
    (hn : p.next_victim_id < p.buffers.length)
    (hinv : buffer.pinv p.buffers) :
    ((buffer.evict p).2 = none ↔ buffer.allPinned p.buffers) ∧
    (∀ vid, (buffer.evict p).2 = some vid →
      vid < (buffer.evict p).1.buffers.length ∧
      buffer.usageAt (buffer.evict p).1.buffers vid = 0 ∧
      buffer.pinnedAt (buffer.evict p).1.buffers vid = false) ∧
    (∀ pt npid psize,
      buffer.create_page ⟨p, pt⟩ npid psize = none ↔ buffer.allPinned p.buffers) ∧
    (∀ pt npid psize m' writes,
      buffer.create_page ⟨p, pt⟩ npid psize = some (m', writes) →
      ∃ vid f, (buffer.evict p).2 = some vid ∧
        (buffer.evict p).1.buffers[vid]? = some f ∧
        f.usage_count = 0 ∧ f.pinned = false ∧
        writes = if f.is_dirty then [(f.page_id, f.page)] else []) ∧
    (∀ pt dsk pid, pt.find? (fun e => e.1 = pid) = none →
      (buffer.fetch_page ⟨p, pt⟩ dsk pid = none ↔ buffer.allPinned p.buffers)) ∧
    (∀ pt dsk pid m' writes, pt.find? (fun e => e.1 = pid) = none →
      buffer.fetch_page ⟨p, pt⟩ dsk pid = some (m', writes) →
      ∃ vid f, (buffer.evict p).2 = some vid ∧
        (buffer.evict p).1.buffers[vid]? = some f ∧
        f.usage_count = 0 ∧ f.pinned = false ∧
        writes = if f.is_dirty then [(f.page_id, f.page)] else []) := by
  have hL : 0 < p.buffers.length := by omega
  rcases hr : buffer.evictGo p.buffers p.next_victim_id 0 with ⟨⟨bufs', next'⟩, ov⟩
  have hev : buffer.evict p = (⟨bufs', next'⟩, ov) := by
    unfold buffer.evict
    rw [hr]
  have hnone_iff : ov = none ↔ buffer.allPinned p.buffers := by
    constructor
    · intro h
      unfold buffer.allPinned
      exact buffer.evictGoNoneHF
        (buffer.sumUsage p.buffers * (p.buffers.length + 1) + (p.buffers.length - 0))
        p.buffers p.next_victim_id 0 hn (by omega)
        (fun d hd => absurd hd (Nat.not_lt_zero d)) hinv le_rfl
        (by rw [hr]; exact h)
    · intro h
      have := buffer.evictGoAllPinnedHF p.buffers.length p.buffers p.next_victim_id 0
        hn h hinv (by omega)
      rw [hr] at this
      exact this
  have hsome_facts : ∀ vid, ov = some vid →
      vid < bufs'.length ∧ bufs'.length = p.buffers.length ∧
      buffer.usageAt bufs' vid = 0 ∧ buffer.pinnedAt bufs' vid = false := by
    intro vid hv
    exact buffer.evictGoSomeHF
      (buffer.sumUsage p.buffers * (p.buffers.length + 1) + (p.buffers.length - 0))
      p.buffers p.next_victim_id 0 bufs' next' vid hn (by omega) hinv le_rfl
      (by rw [hr, hv])
  refine ⟨?_, ?_, ?_, ?_, ?_, ?_⟩
  · rw [hev]
    exact hnone_iff
  · intro vid hv
    rw [hev] at hv ⊢
    dsimp only at hv ⊢
    obtain ⟨h1, h2, h3, h4⟩ := hsome_facts vid hv
    exact ⟨h1, h3, h4⟩
  · intro pt npid psize
    unfold buffer.create_page
    dsimp only
    rw [hev]
    cases ov with
    | none =>
      dsimp only
      exact ⟨fun _ => hnone_iff.mp rfl, fun _ => rfl⟩
    | some vid =>
      obtain ⟨hvlt, hlen, hu0, hpf⟩ := hsome_facts vid rfl
      have hbv : bufs'[vid]? = some bufs'[vid] := List.getElem?_eq_getElem hvlt
      have hpin : bufs'[vid].pinned = false := by
        unfold buffer.pinnedAt at hpf
        rw [hbv] at hpf
        simpa using hpf
      dsimp only
      rw [hbv]
      dsimp only
      rw [if_neg (by rw [hpin]; simp)]
      constructor
      · intro hcontra
        cases hcontra
      · intro hall
        cases hnone_iff.mpr hall
  · intro pt npid psize m' writes h
    cases ov with
    | none =>
      unfold buffer.create_page at h
      dsimp only at h
      rw [hev] at h
      dsimp only at h
      cases h
    | some vid =>
      obtain ⟨hvlt, hlen, hu0, hpf⟩ := hsome_facts vid rfl
      have hbv : bufs'[vid]? = some bufs'[vid] := List.getElem?_eq_getElem hvlt
      have hpin : bufs'[vid].pinned = false := by
        unfold buffer.pinnedAt at hpf
        rw [hbv] at hpf
        simpa using hpf
      have husage : bufs'[vid].usage_count = 0 := by
        unfold buffer.usageAt at hu0
        rw [hbv] at hu0
        simpa using hu0
      unfold buffer.create_page at h
      dsimp only at h
      rw [hev] at h
      dsimp only at h
      rw [hbv] at h
      dsimp only at h
      rw [if_neg (by rw [hpin]; simp)] at h
      injection h with h
      refine ⟨vid, bufs'[vid], by rw [hev], by rw [hev]; exact hbv, husage, hpin, ?_⟩
      have := (Prod.mk.inj h).2
      exact this.symm
  · intro pt dsk pid hmiss
    unfold buffer.fetch_page
    rw [hmiss]
    dsimp only
    rw [hev]
    cases ov with
    | none =>
      dsimp only
      exact ⟨fun _ => hnone_iff.mp rfl, fun _ => rfl⟩
    | some vid =>
      obtain ⟨hvlt, hlen, hu0, hpf⟩ := hsome_facts vid rfl
      have hbv : bufs'[vid]? = some bufs'[vid] := List.getElem?_eq_getElem hvlt
      have hpin : bufs'[vid].pinned = false := by
        unfold buffer.pinnedAt at hpf
        rw [hbv] at hpf
        simpa using hpf
      dsimp only
      rw [hbv]
      dsimp only
      rw [if_neg (by rw [hpin]; simp)]
      constructor
      · intro hcontra
        cases hcontra
      · intro hall
        cases hnone_iff.mpr hall
  · intro pt dsk pid m' writes hmiss h
    cases ov with
    | none =>
      unfold buffer.fetch_page at h
      rw [hmiss] at h
      dsimp only at h
      rw [hev] at h
      dsimp only at h
      cases h
    | some vid =>
      obtain ⟨hvlt, hlen, hu0, hpf⟩ := hsome_facts vid rfl
      have hbv : bufs'[vid]? = some bufs'[vid] := List.getElem?_eq_getElem hvlt
      have hpin : bufs'[vid].pinned = false := by
        unfold buffer.pinnedAt at hpf
        rw [hbv] at hpf
        simpa using hpf
      have husage : bufs'[vid].usage_count = 0 := by
        unfold buffer.usageAt at hu0
        rw [hbv] at hu0
        simpa using hu0
      unfold buffer.fetch_page at h
      rw [hmiss] at h
      dsimp only at h
      rw [hev] at h
      dsimp only at h
      rw [hbv] at h
      dsimp only at h
      rw [if_neg (by rw [hpin]; simp)] at h
      injection h with h
      refine ⟨vid, bufs'[vid], by rw [hev], by rw [hev]; exact hbv, husage, hpin, ?_⟩
      have := (Prod.mk.inj h).2
      exact this.symm

/-- A two-frame pool: frame 0 pinned with usage 3, frame 1 unpinned and
dirty with usage 2. -/
def c6pool : buffer.BufferPool :=
  ⟨[⟨3, true, 5, [1, 2], true⟩, ⟨2, false, 6, [3, 4], true⟩], 0⟩

/-- C6 witness: the eviction theorem applied to the concrete pool. -/
theorem c6_buffer_eviction_witness :
    ((buffer.evict c6pool).2 = none ↔ buffer.allPinned c6pool.buffers) ∧
    (∀ vid, (buffer.evict c6pool).2 = some vid →
      vid < (buffer.evict c6pool).1.buffers.length ∧
      buffer.usageAt (buffer.evict c6pool).1.buffers vid = 0 ∧
      buffer.pinnedAt (buffer.evict c6pool).1.buffers vid = false) :=
  ⟨(c6_buffer_eviction c6pool (by decide) (by decide)).1,
   (c6_buffer_eviction c6pool (by decide) (by decide)).2.1⟩

/-! ## B+Tree (`src/btree.rs`)

A logical page-store model: pages are nodes indexed by page id (the
`DiskManager` allocates ids densely, so `create_page` appends).  A leaf
node carries the `prev_page_id`/`next_page_id` header fields and its
pair list in slot order; a branch carries `right_child` and its
key/child slots.  Byte-level space accounting mirrors the slotted page:
a slot occupies `4 + |serialized pair|` bytes of the body, `free_space
= capacity - Σ(4 + len)`, `Slotted::insert` fails when `free_space <
4 + len`, and `max_pair_size = capacity / 2 - 4`.  Branch slot values
are 8-byte little-endian page ids.  Recursion over pages uses explicit
fuel (the tree height bounds it); `none` stands for panics and fuel
exhaustion. -/

namespace btree

abbrev KV := List Nat × List Nat

abbrev SlotE := List Nat × Nat

inductive Node where
  | leaf (prev nxt : Option Nat) (pairs : List KV)
  | branch (right : Nat) (slots : List SlotE)
deriving DecidableEq

/-- `PageId::to_le_bytes` (zerocopy `AsBytes` on little endian). -/
def u64Bytes (n : Nat) : List Nat :=
  [n % 256, n / 256 % 256, n / 65536 % 256, n / 16777216 % 256,
   n / 4294967296 % 256, n / 1099511627776 % 256,
   n / 281474976710656 % 256, n / 72057594037927936 % 256]

def pairKeyAt (pairs : List KV) (i : Nat) : List Nat :=
  ((pairs[i]?).map Prod.fst).getD []

def slotKeyAt (slots : List SlotE) (i : Nat) : List Nat :=
  ((slots[i]?).map Prod.fst).getD []

/-- `Leaf::search_slot_id` on the logical pair list. -/
def leafSearchSlotId (pairs : List KV) (k : List Nat) : Except Nat Nat :=
  binary_search_by pairs.length fun i => lexCmp (pairKeyAt pairs i) k

/-- `search_mode.tuple_slot_id(...).unwrap_or_else(identity)`. -/
def leafSettleSlot (pairs : List KV) (k : List Nat) : Nat :=
  match leafSearchSlotId pairs k with
  | .ok i => i
  | .error i => i

/-- `Branch::search_slot_id` on the logical slot list. -/
def branchSearchSlotId (slots : List SlotE) (k : List Nat) : Except Nat Nat :=
  binary_search_by slots.length fun i => lexCmp (slotKeyAt slots i) k

/-- `Branch::search_child_idx`. -/
def branchChildIdx (slots : List SlotE) (k : List Nat) : Nat :=
  match branchSearchSlotId slots k with
  | .ok i => i + 1
  | .error i => i

/-- `Branch::child_at`. -/
def childAtL (right : Nat) (slots : List SlotE) (idx : Nat) : Nat :=
  if idx = slots.length then right else ((slots[idx]?).map Prod.snd).getD right

inductive SearchMode where
  | start
  | key (k : List Nat)

/-- `BTree::search_internal`: descend to a leaf, position the iterator
at the slot found for the mode, and advance into the next leaf when
positioned past the last pair (`is_right_most`). -/
def searchGo (store : List Node) : Nat → Nat → SearchMode → Option (Nat × Nat)
  | 0, _, _ => none
  | fuel + 1, pid, mode =>
    match store[pid]? with
    | none => none
    | some (.leaf _ nl pairs) =>
      let slot_id := match mode with
        | .start => 0
        | .key k => leafSettleSlot pairs k
      if pairs.length = slot_id then
        match nl with
        | none => some (pid, slot_id + 1)
        | some npid => some (npid, 0)
      else some (pid, slot_id)
    | some (.branch right slots) =>
      let cidx := match mode with
        | .start => 0
        | .key k => branchChildIdx slots k
      searchGo store fuel (childAtL right slots cidx) mode

/-- `Iter::get`. -/
def iterGet (store : List Node) (it : Nat × Nat) : Option KV :=
  match store[it.1]? with
  | some (.leaf _ _ pairs) => pairs[it.2]?
  | _ => none

def keyGE (a k : List Nat) : Bool :=
  match lexCmp a k with
  | .lt => false
  | _ => true

/-- The first stored pair whose key is `≥ k`; on a sorted contents list
this is the pair with the smallest key `≥ k`. -/
def storedSucc (contents : List KV) (k : List Nat) : Option KV :=
  contents.find? fun pr => keyGE pr.1 k

/-- Serialized size of a leaf pair. -/
def lpSize (k v : List Nat) : Nat := (pair.to_bytes k v).length

/-- Serialized size of a branch pair (8-byte page-id value). -/
def bpSize (k : List Nat) (pid : Nat) : Nat := (pair.to_bytes k (u64Bytes pid)).length

def leafFreeSpace (capL : Nat) (pairs : List KV) : Nat :=
  capL - ((pairs.map fun pr => 4 + lpSize pr.1 pr.2).sum)

def branchFreeSpace (capB : Nat) (slots : List SlotE) : Nat :=
  capB - ((slots.map fun s => 4 + bpSize s.1 s.2).sum)

/-- The trailing `while !new.is_half_full() { self.transfer(new) }` of
`Leaf::split_insert` on logical pairs. -/
def leafTransferLoopL (capL : Nat) : List KV → List KV → Option (List KV × List KV)
  | self, new =>
    if 2 * leafFreeSpace capL new < capL then some (self, new)
    else
      match self with
      | [] => none
      | p0 :: rest =>
        if leafFreeSpace capL new < 4 + lpSize p0.1 p0.2 then none
        else leafTransferLoopL capL rest (new ++ [p0])

/-- The main loop of `Leaf::split_insert` on logical pairs. -/
def leafSplitLoopL (capL : Nat) (k v : List Nat) :
    List KV → List KV → Option (List KV × List KV)
  | self, new =>
    if 2 * leafFreeSpace capL new < capL then
      match leafSearchSlotId self k with
      | .ok _ => none
      | .error idx =>
        if lpSize k v ≤ capL / 2 - 4 then
          if leafFreeSpace capL self < 4 + lpSize k v then none
          else some (self.insertIdx idx (k, v), new)
        else none
    else
      match self with
      | [] => none
      | p0 :: rest =>
        if lexCmp p0.1 k = .lt then
          if leafFreeSpace capL new < 4 + lpSize p0.1 p0.2 then none
          else leafSplitLoopL capL k v rest (new ++ [p0])
        else
          if lpSize k v ≤ capL / 2 - 4 then
            if leafFreeSpace capL new < 4 + lpSize k v then none
            else leafTransferLoopL capL self (new ++ [(k, v)])
          else none

/-- `Branch::split_insert`'s trailing transfer loop. -/
def branchTransferLoopL (capB : Nat) : List SlotE → List SlotE → Option (List SlotE × List SlotE)
  | self, new =>
    if 2 * branchFreeSpace capB new < capB then some (self, new)
    else
      match self with
      | [] => none
      | p0 :: rest =>
        if branchFreeSpace capB new < 4 + bpSize p0.1 p0.2 then none
        else branchTransferLoopL capB rest (new ++ [p0])

/-- The main loop of `Branch::split_insert` on logical slots. -/
def branchSplitLoopL (capB : Nat) (k : List Nat) (pid : Nat) :
    List SlotE → List SlotE → Option (List SlotE × List SlotE)
  | self, new =>
    if 2 * branchFreeSpace capB new < capB then
      match branchSearchSlotId self k with
      | .ok _ => none
      | .error idx =>
        if bpSize k pid ≤ capB / 2 - 4 then
          if branchFreeSpace capB self < 4 + bpSize k pid then none
          else some (self.insertIdx idx (k, pid), new)
        else none
    else
      match self with
      | [] => none
      | p0 :: rest =>
        if lexCmp p0.1 k = .lt then
          if branchFreeSpace capB new < 4 + bpSize p0.1 p0.2 then none
          else branchSplitLoopL capB k pid rest (new ++ [p0])
        else
          if bpSize k pid ≤ capB / 2 - 4 then
            if branchFreeSpace capB new < 4 + bpSize k pid then none
            else branchTransferLoopL capB self (new ++ [(k, pid)])
          else none

/-- `Branch::fill_right_child`: pop the last slot of the new branch;
its value becomes `right_child` and its key is promoted. -/
def branchFillRight (slots : List SlotE) : Option (List SlotE × List Nat × Nat) :=
  match slots.getLast? with
  | none => none
  | some last => some (slots.dropLast, last.1, last.2)

/-- `BTree::insert_internal`: returns the updated store and either the
`DuplicateKey` error (`Except.error`) or an optional promoted
`(key, new_page_id)` pair.  Mutations happen only on the `ok` paths;
the error propagates before any page is written, so the store is
returned unchanged along it (mirroring the early `return`/`?` in the
source). -/
def insertInternal (capL capB : Nat) (store : List Node) :
    Nat → Nat → List Nat → List Nat →
    Option (List Node × Except Unit (Option (List Nat × Nat)))
  | 0, _, _, _ => none
  | fuel + 1, pid, k, v =>
    match store[pid]? with
    | none => none
    | some (.leaf prev nxt pairs) =>
      match leafSearchSlotId pairs k with
      | .ok _ => some (store, .error ())
      | .error slot_id =>
        if lpSize k v ≤ capL / 2 - 4 then
          if leafFreeSpace capL pairs < 4 + lpSize k v then
            -- leaf is full: link in a new left sibling and split
            match
              (match prev with
               | none => some store
               | some ppid =>
                 match store[ppid]? with
                 | some (.leaf pprev _ ppairs) =>
                   some (store.set ppid (.leaf pprev (some store.length) ppairs))
                 | _ => none) with
            | none => none
            | some store1 =>
              match leafSplitLoopL capL k v pairs [] with
              | none => none
              | some (selfPairs, newPairs) =>
                match selfPairs[0]? with
                | none => none
                | some pr0 =>
                  some ((store1.set pid (.leaf (some store.length) nxt selfPairs)) ++
                          [.leaf prev (some pid) newPairs],
                        .ok (some (pr0.1, store.length)))
          else
            some (store.set pid (.leaf prev nxt (pairs.insertIdx slot_id (k, v))),
                  .ok none)
        else none
    | some (.branch right slots) =>
      match insertInternal capL capB store fuel
          (childAtL right slots (branchChildIdx slots k)) k v with
      | none => none
      | some (store1, .error e) => some (store1, .error e)
      | some (store1, .ok none) => some (store1, .ok none)
      | some (store1, .ok (some (okey, opid))) =>
        if bpSize okey opid ≤ capB / 2 - 4 then
          if branchFreeSpace capB slots < 4 + bpSize okey opid then
            match branchSplitLoopL capB okey opid slots [] with
            | none => none
            | some (selfSlots, newSlots) =>
              match branchFillRight newSlots with
              | none => none
              | some (newSlots1, promKey, newRight) =>
                some ((store1.set pid (.branch right selfSlots)) ++
                        [.branch newRight newSlots1],
                      .ok (some (promKey, store1.length)))
          else
            some (store1.set pid
                    (.branch right
                      (slots.insertIdx (branchChildIdx slots k) (okey, opid))),
                  .ok none)
        else none

structure Tree where
  store : List Node
  root : Nat
deriving DecidableEq

/-- `BTree::insert`: run `insert_internal` from the root; on overflow
allocate a new root branch `initialize`d with the promoted key, the new
page as left child and the old root as right child, and repoint the
meta page. -/
def btreeInsert (capL capB fuel : Nat) (t : Tree) (k v : List Nat) :
    Option (Except Tree Tree) :=
  match insertInternal capL capB t.store fuel t.root k v with
  | none => none
  | some (store1, .error _) => some (.error ⟨store1, t.root⟩)
  | some (store1, .ok none) => some (.ok ⟨store1, t.root⟩)
  | some (store1, .ok (some (okey, opid))) =>
    if bpSize okey opid ≤ capB / 2 - 4 then
      if branchFreeSpace capB [] < 4 + bpSize okey opid then none
      else some (.ok ⟨store1 ++ [.branch t.root [(okey, opid)]], store1.length⟩)
    else none

/-- Upper key bound: every key of `cs` is `< u`. -/
def keysLTk (cs : List KV) (u : List Nat) : Prop :=
  ∀ pr ∈ cs, lexCmp pr.1 u = .lt

/-- Optional lower key bound: every key of `cs` is `≥ lo` when present. -/
def keysGEo (cs : List KV) (lo : Option (List Nat)) : Prop :=
  ∀ pr ∈ cs, match lo with
    | none => True
    | some l => lexCmp pr.1 l ≠ .lt

/-- Well-formedness of a branch's slot list relative to a subtree
predicate `P pid first nxt contents`: every child is nonempty, holds
the keys between the surrounding routing keys, its rightmost leaf
chains to the leftmost leaf of the next child, and the subtree contents
concatenate in slot order.  `right`/`nxt` close off the last child. -/
def ChildrenWF (P : Nat → Nat → Option Nat → List KV → Prop) :
    List SlotE → Nat → Nat → Option Nat → List KV → Option (List Nat) → Prop
  | [], right, first, nxt, contents, lo =>
      contents ≠ [] ∧ keysGEo contents lo ∧ P right first nxt contents
  | (sk, c0) :: rest, right, first, nxt, contents, lo =>
      ∃ cs0 rest_cs f1,
        contents = cs0 ++ rest_cs ∧ cs0 ≠ [] ∧
        keysGEo cs0 lo ∧ keysLTk cs0 sk ∧
        P c0 first (some f1) cs0 ∧
        ChildrenWF P rest right f1 nxt rest_cs (some sk)

/-- `TreeWF store h pid first nxt contents`: the subtree of height `h`
rooted at page `pid` stores exactly `contents` (in leaf order), its
leftmost leaf is page `first`, and its rightmost leaf's `next_page_id`
is `nxt`. -/
def TreeWF (store : List Node) : Nat → Nat → Nat → Option Nat → List KV → Prop
  | 0, pid, first, nxt, contents =>
      ∃ prev, store[pid]? = some (.leaf prev nxt contents) ∧ first = pid
  | h + 1, pid, first, nxt, contents =>
      ∃ right slots, store[pid]? = some (.branch right slots) ∧ slots ≠ [] ∧
        ChildrenWF (TreeWF store h) slots right first nxt contents none

/-- Strictly ascending keys. -/
def sortedKV (contents : List KV) : Prop :=
  ∀ i, i < contents.length → ∀ j, j < contents.length → i < j →
    lexCmp (pairKeyAt contents i) (pairKeyAt contents j) = .lt

instance (contents : List KV) : Decidable (sortedKV contents) :=
  Nat.decidableBallLT _ _

end btree

theorem lexCmp_le_lt_trans {a b c : List Nat}
    (h1 : lexCmp a b ≠ .gt) (h2 : lexCmp b c = .lt) : lexCmp a c = .lt := by
  cases hab : lexCmp a b with
  | lt => exact lexCmp_trans_lt a b c hab h2
  | eq => rw [(lexCmp_eq_eq a b).mp hab]; exact h2
  | gt => exact absurd hab h1

theorem lexCmp_lt_le_trans {a b c : List Nat}
    (h1 : lexCmp a b = .lt) (h2 : lexCmp b c ≠ .gt) : lexCmp a c = .lt := by
  cases hbc : lexCmp b c with
  | lt => exact lexCmp_trans_lt a b c h1 hbc
  | eq => rw [← (lexCmp_eq_eq b c).mp hbc]; exact h1
  | gt => exact absurd hbc h2

theorem lexCmp_ge_lt_trans {a b c : List Nat}
    (h1 : lexCmp b a ≠ .lt) (h2 : lexCmp b c = .lt) : lexCmp a c = .lt := by
  apply lexCmp_le_lt_trans _ h2
  intro hab
  exact h1 ((lexCmp_gt_iff_lt a b).mp hab)

theorem lexCmp_lt_ge_trans {a b c : List Nat}
    (h1 : lexCmp a b = .lt) (h2 : lexCmp c b ≠ .lt) : lexCmp a c = .lt := by
  apply lexCmp_lt_le_trans h1
  intro hbc
  exact h2 ((lexCmp_gt_iff_lt b c).mp hbc)

namespace btree

theorem keyGE_true {a k : List Nat} : keyGE a k = true ↔ lexCmp a k ≠ .lt := by
  unfold keyGE
  cases lexCmp a k <;> simp

theorem keyGE_false {a k : List Nat} : keyGE a k = false ↔ lexCmp a k = .lt := by
  unfold keyGE
  cases lexCmp a k <;> simp

theorem find?_append_none {α : Type} (l1 l2 : List α) (p : α → Bool)
    (h : ∀ x ∈ l1, p x = false) : (l1 ++ l2).find? p = l2.find? p := by
  induction l1 with
  | nil => rfl
  | cons a t ih =>
    rw [List.cons_append, List.find?_cons, h a (List.mem_cons_self a t)]
    exact ih fun x hx => h x (List.mem_cons_of_mem a hx)

theorem find?_append_some {α : Type} (l1 l2 : List α) (p : α → Bool) (x : α)
    (h : l1.find? p = some x) : (l1 ++ l2).find? p = some x := by
  induction l1 with
  | nil => cases h
  | cons a t ih =>
    rw [List.cons_append, List.find?_cons]
    rw [List.find?_cons] at h
    cases hp : p a with
    | true => rw [hp] at h; simpa using h
    | false =>
      rw [hp] at h
      simp only [hp]
      exact ih h

theorem find?_eq_none_of_all {α : Type} (l : List α) (p : α → Bool)
    (h : ∀ x ∈ l, p x = false) : l.find? p = none := by
  induction l with
  | nil => rfl
  | cons a t ih =>
    rw [List.find?_cons, h a (List.mem_cons_self a t)]
    exact ih fun x hx => h x (List.mem_cons_of_mem a hx)

theorem find?_all_of_eq_none {α : Type} (l : List α) (p : α → Bool)
    (h : l.find? p = none) : ∀ x ∈ l, p x = false := by
  induction l with
  | nil => intro x hx; cases hx
  | cons a t ih =>
    rw [List.find?_cons] at h
    intro x hx
    cases hp : p a with
    | true => rw [hp] at h; cases h
    | false =>
      rw [hp] at h
      rcases List.mem_cons.mp hx with rfl | hx'
      · exact hp
      · exact ih h x hx'

theorem find?_at_index {α : Type} (l : List α) (p : α → Bool) (i : Nat)
    (hi : i < l.length) (hbefore : ∀ j, j < i → ∀ x, l[j]? = some x → p x = false)
    (hat : ∀ x, l[i]? = some x → p x = true) :
    l.find? p = l[i]? := by
  induction l generalizing i with
  | nil => simp at hi
  | cons a t ih =>
    cases i with
    | zero =>
      have := hat a (by rw [List.getElem?_cons_zero])
      rw [List.find?_cons, this, List.getElem?_cons_zero]
    | succ j =>
      have h0 : p a = false :=
        hbefore 0 (Nat.succ_pos j) a (by rw [List.getElem?_cons_zero])
      rw [List.find?_cons, h0, List.getElem?_cons_succ]
      exact ih j (by simpa using hi)
        (fun j' hj' x hx => hbefore (j' + 1) (by omega) x
          (by rw [List.getElem?_cons_succ]; exact hx))
        (fun x hx => hat x (by rw [List.getElem?_cons_succ]; exact hx))

theorem pairKeyAt_append_left (l1 l2 : List KV) (i : Nat) (h : i < l1.length) :
    pairKeyAt (l1 ++ l2) i = pairKeyAt l1 i := by
  unfold pairKeyAt
  rw [List.getElem?_append_left h]

theorem pairKeyAt_append_right (l1 l2 : List KV) (i : Nat) (h : l1.length ≤ i) :
    pairKeyAt (l1 ++ l2) i = pairKeyAt l2 (i - l1.length) := by
  unfold pairKeyAt
  rw [List.getElem?_append_right h]

theorem sortedKV_append_left (l1 l2 : List KV) (h : sortedKV (l1 ++ l2)) :
    sortedKV l1 := by
  intro i hi j hj hij
  have := h i (by simp; omega) j (by simp; omega) hij
  rwa [pairKeyAt_append_left l1 l2 i hi, pairKeyAt_append_left l1 l2 j hj] at this

theorem sortedKV_append_right (l1 l2 : List KV) (h : sortedKV (l1 ++ l2)) :
    sortedKV l2 := by
  intro i hi j hj hij
  have := h (l1.length + i) (by simp; omega) (l1.length + j) (by simp; omega) (by omega)
  rwa [pairKeyAt_append_right l1 l2 _ (by omega),
    pairKeyAt_append_right l1 l2 _ (by omega), Nat.add_sub_cancel_left,
    Nat.add_sub_cancel_left] at this

/-- Monotonicity of the comparator `i ↦ lexCmp (keyF i) k` for a
strictly ascending key sequence, in the form `binary_search_by_spec`
expects. -/
theorem lexCmp_comparator_mono (keyF : Nat → List Nat) (n : Nat) (k : List Nat)
    (hsort : ∀ i j, i < j → j < n → lexCmp (keyF i) (keyF j) = .lt) :
    (∀ i j, i ≤ j → j < n → lexCmp (keyF j) k = .lt → lexCmp (keyF i) k = .lt) ∧
    (∀ i j, i ≤ j → j < n → lexCmp (keyF i) k = .gt → lexCmp (keyF j) k = .gt) := by
  constructor
  · intro i j hij hj h
    rcases Nat.eq_or_lt_of_le hij with rfl | hlt
    · exact h
    · exact lexCmp_trans_lt _ _ _ (hsort i j hlt hj) h
  · intro i j hij hj h
    rcases Nat.eq_or_lt_of_le hij with rfl | hlt
    · exact h
    · have h1 : lexCmp k (keyF i) = .lt := (lexCmp_gt_iff_lt _ _).mp h
      exact (lexCmp_gt_iff_lt _ _).mpr
        (lexCmp_trans_lt _ _ _ h1 (hsort i j hlt hj))

/-- The slot id a leaf search settles on (`Ok` or `Err` alike) is the
first slot whose key is `≥ k`. -/
theorem leafSettleSlot_ok (pairs : List KV) (k : List Nat) (i : Nat)
    (h : leafSearchSlotId pairs k = .ok i) : leafSettleSlot pairs k = i := by
  unfold leafSettleSlot
  rw [h]

theorem leafSettleSlot_error (pairs : List KV) (k : List Nat) (i : Nat)
    (h : leafSearchSlotId pairs k = .error i) : leafSettleSlot pairs k = i := by
  unfold leafSettleSlot
  rw [h]

theorem leafSlotId_spec (pairs : List KV) (k : List Nat) (hs : sortedKV pairs) :
    leafSettleSlot pairs k ≤ pairs.length ∧
    (∀ j, j < leafSettleSlot pairs k → lexCmp (pairKeyAt pairs j) k = .lt) ∧
    (leafSettleSlot pairs k < pairs.length →
      lexCmp (pairKeyAt pairs (leafSettleSlot pairs k)) k ≠ .lt) := by
  obtain ⟨hlt, hgt⟩ := lexCmp_comparator_mono (pairKeyAt pairs) pairs.length k
    (fun i j hij hj => hs i (by omega) j hj hij)
  have spec := binary_search_by_spec (fun i => lexCmp (pairKeyAt pairs i) k)
    pairs.length hlt hgt
  cases hq : leafSearchSlotId pairs k with
  | ok i =>
    rw [leafSettleSlot_ok pairs k i hq]
    obtain ⟨hin, heq⟩ := spec.1 i hq
    have heq' : lexCmp (pairKeyAt pairs i) k = .eq := heq
    refine ⟨by omega, ?_, ?_⟩
    · intro j hj
      by_contra hc
      cases hjc : lexCmp (pairKeyAt pairs j) k with
      | lt => exact hc hjc
      | eq =>
        have := hs j (by omega) i hin hj
        rw [(lexCmp_eq_eq _ _).mp hjc, (lexCmp_eq_eq _ _).mp heq'] at this
        rw [(lexCmp_eq_eq k k).mpr rfl] at this
        cases this
      | gt =>
        have := hgt j i (by omega) hin hjc
        rw [heq'] at this
        cases this
    · intro _
      rw [heq']
      intro hc
      cases hc
  | error i =>
    rw [leafSettleSlot_error pairs k i hq]
    obtain ⟨hin, hbef, haft⟩ := spec.2 i hq
    have hin' : i ≤ pairs.length := hin
    refine ⟨hin', ?_, ?_⟩
    · intro j hj
      exact hbef j hj
    · intro hlt2 hc
      have := haft _ le_rfl hlt2
      dsimp only at this
      rw [hc] at this
      cases this

theorem slotKeyAt_cons_zero (sk : List Nat) (c : Nat) (rest : List SlotE) :
    slotKeyAt ((sk, c) :: rest) 0 = sk := by
  unfold slotKeyAt
  rw [List.getElem?_cons_zero]
  rfl

theorem slotKeyAt_cons_succ (sk : List Nat) (c : Nat) (rest : List SlotE) (j : Nat) :
    slotKeyAt ((sk, c) :: rest) (j + 1) = slotKeyAt rest j := by
  unfold slotKeyAt
  rw [List.getElem?_cons_succ]

theorem branchChildIdx_ok (slots : List SlotE) (k : List Nat) (i : Nat)
    (h : branchSearchSlotId slots k = .ok i) : branchChildIdx slots k = i + 1 := by
  unfold branchChildIdx
  rw [h]

theorem branchChildIdx_error (slots : List SlotE) (k : List Nat) (i : Nat)
    (h : branchSearchSlotId slots k = .error i) : branchChildIdx slots k = i := by
  unfold branchChildIdx
  rw [h]

/-- The child index a branch routes `k` to is the least slot whose key
is strictly greater than `k`. -/
theorem branchChildIdx_spec (slots : List SlotE) (k : List Nat)
    (hasc : ∀ i j, i < j → j < slots.length →
      lexCmp (slotKeyAt slots i) (slotKeyAt slots j) = .lt) :
    branchChildIdx slots k ≤ slots.length ∧
    (∀ j, j < branchChildIdx slots k → lexCmp (slotKeyAt slots j) k ≠ .gt) ∧
    (branchChildIdx slots k < slots.length →
      lexCmp k (slotKeyAt slots (branchChildIdx slots k)) = .lt) := by
  obtain ⟨hlt, hgt⟩ := lexCmp_comparator_mono (slotKeyAt slots) slots.length k
    (fun i j hij hj => hasc i j hij hj)
  have spec := binary_search_by_spec (fun i => lexCmp (slotKeyAt slots i) k)
    slots.length hlt hgt
  cases hq : branchSearchSlotId slots k with
  | ok i =>
    rw [branchChildIdx_ok slots k i hq]
    obtain ⟨hin, heq⟩ := spec.1 i hq
    have heq' : lexCmp (slotKeyAt slots i) k = .eq := heq
    refine ⟨by omega, ?_, ?_⟩
    · intro j hj hg
      have := hgt j i (by omega) hin hg
      rw [heq'] at this
      cases this
    · intro hi
      have hik : slotKeyAt slots i = k := (lexCmp_eq_eq _ _).mp heq'
      rw [← hik]
      exact hasc i (i + 1) (by omega) hi
  | error i =>
    rw [branchChildIdx_error slots k i hq]
    obtain ⟨hin, hbef, haft⟩ := spec.2 i hq
    refine ⟨hin, ?_, ?_⟩
    · intro j hj
      have : lexCmp (slotKeyAt slots j) k = .lt := hbef j hj
      rw [this]
      intro hc
      cases hc
    · intro hi
      have : lexCmp (slotKeyAt slots i) k = .gt := haft i le_rfl hi
      exact (lexCmp_gt_iff_lt _ _).mp this

theorem childrenNonempty {P : Nat → Nat → Option Nat → List KV → Prop} :
    ∀ slots right first nxt contents lo,
      ChildrenWF P slots right first nxt contents lo → contents ≠ [] := by
  intro slots
  cases slots with
  | nil =>
    intro right first nxt contents lo h
    exact h.1
  | cons s rest =>
    intro right first nxt contents lo h
    obtain ⟨sk, c0⟩ := s
    obtain ⟨cs0, rest_cs, f1, hceq, hne0, -, -, -, -⟩ := h
    rw [hceq]
    intro hc
    rw [List.append_eq_nil] at hc
    exact hne0 hc.1

theorem childrenKeysGE {P : Nat → Nat → Option Nat → List KV → Prop} :
    ∀ slots right first nxt contents lo,
      ChildrenWF P slots right first nxt contents lo → keysGEo contents lo := by
  intro slots
  induction slots with
  | nil =>
    intro right first nxt contents lo h
    exact h.2.1
  | cons s rest ih =>
    intro right first nxt contents lo h
    obtain ⟨sk, c0⟩ := s
    obtain ⟨cs0, rest_cs, f1, hceq, hne0, hge0, hlt0, hP, hrest⟩ := h
    have hge1 : keysGEo rest_cs (some sk) := ih _ _ _ _ _ hrest
    subst hceq
    intro pr hpr
    cases lo with
    | none => trivial
    | some l =>
      rcases List.mem_append.mp hpr with hm | hm
      · exact hge0 pr hm
      · -- pick a witness from the nonempty cs0 to see l < sk
        obtain ⟨q, hq⟩ := List.exists_mem_of_ne_nil cs0 hne0
        have hql : lexCmp q.1 l ≠ .lt := hge0 q hq
        have hqs : lexCmp q.1 sk = .lt := hlt0 q hq
        have hls : lexCmp l sk = .lt := lexCmp_ge_lt_trans hql hqs
        have hps : lexCmp pr.1 sk ≠ .lt := hge1 pr hm
        intro hc
        exact hps (lexCmp_trans_lt _ _ _ hc hls)

theorem childrenSlotAsc {P : Nat → Nat → Option Nat → List KV → Prop} :
    ∀ slots right first nxt contents lo,
      ChildrenWF P slots right first nxt contents lo →
      (∀ l, lo = some l → ∀ i, i < slots.length →
        lexCmp l (slotKeyAt slots i) = .lt) ∧
      (∀ i j, i < j → j < slots.length →
        lexCmp (slotKeyAt slots i) (slotKeyAt slots j) = .lt) := by
  intro slots
  induction slots with
  | nil =>
    intro right first nxt contents lo _
    exact ⟨fun l _ i hi => absurd hi (by simp), fun i j _ hj => absurd hj (by simp)⟩
  | cons s rest ih =>
    intro right first nxt contents lo h
    obtain ⟨sk, c0⟩ := s
    obtain ⟨cs0, rest_cs, f1, hceq, hne0, hge0, hlt0, hP, hrest⟩ := h
    obtain ⟨ih1, ih2⟩ := ih _ _ _ _ _ hrest
    have hsk_lt : ∀ l, lo = some l → lexCmp l sk = .lt := by
      intro l hlo
      subst hlo
      obtain ⟨q, hq⟩ := List.exists_mem_of_ne_nil cs0 hne0
      exact lexCmp_ge_lt_trans (hge0 q hq) (hlt0 q hq)
    constructor
    · intro l hlo i hi
      cases i with
      | zero => rw [slotKeyAt_cons_zero]; exact hsk_lt l hlo
      | succ i' =>
        rw [slotKeyAt_cons_succ]
        exact lexCmp_trans_lt _ _ _ (hsk_lt l hlo)
          (ih1 sk rfl i' (by simpa using hi))
    · intro i j hij hj
      cases j with
      | zero => omega
      | succ j' =>
        rw [slotKeyAt_cons_succ]
        cases i with
        | zero =>
          rw [slotKeyAt_cons_zero]
          exact ih1 sk rfl j' (by simpa using hj)
        | succ i' =>
          rw [slotKeyAt_cons_succ]
          exact ih2 i' j' (by omega) (by simpa using hj)

theorem head?_append_of_ne_nil {α : Type} (l1 l2 : List α) (h : l1 ≠ []) :
    (l1 ++ l2).head? = l1.head? := by
  cases l1 with
  | nil => exact absurd rfl h
  | cons a t => rfl

theorem getElem?_zero_eq_head? {α : Type} (l : List α) : l[0]? = l.head? := by
  cases l with
  | nil => rfl
  | cons a t => rw [List.getElem?_cons_zero]; rfl

/-- The leftmost leaf starts with the subtree's first pair. -/
theorem treeWF_first (store : List Node) :
    ∀ h pid first nxt contents,
      TreeWF store h pid first nxt contents →
      iterGet store (first, 0) = contents.head? := by
  intro h
  induction h with
  | zero =>
    intro pid first nxt contents hwf
    obtain ⟨prev, hp, hf⟩ := hwf
    subst hf
    unfold iterGet
    rw [hp]
    exact getElem?_zero_eq_head? contents
  | succ h' ih =>
    intro pid first nxt contents hwf
    obtain ⟨right, slots, hp, hne, hcw⟩ := hwf
    cases slots with
    | nil => exact absurd rfl hne
    | cons s rest =>
      obtain ⟨sk, c0⟩ := s
      obtain ⟨cs0, rest_cs, f1, hceq, hne0, -, -, hP, -⟩ := hcw
      subst hceq
      rw [head?_append_of_ne_nil cs0 rest_cs hne0]
      exact ih c0 first (some f1) cs0 hP

/-- The `first` parameter of a `ChildrenWF` chain is the leftmost leaf
of its first child. -/
theorem childrenFirst (store : List Node) (hh : Nat) :
    ∀ slots right first nxt contents lo,
      ChildrenWF (TreeWF store hh) slots right first nxt contents lo →
      iterGet store (first, 0) = contents.head? := by
  intro slots
  cases slots with
  | nil =>
    intro right first nxt contents lo h
    exact treeWF_first store hh right first nxt contents h.2.2
  | cons s rest =>
    intro right first nxt contents lo h
    obtain ⟨sk, c0⟩ := s
    obtain ⟨cs0, rest_cs, f1, hceq, hne0, -, -, hP, -⟩ := h
    subst hceq
    rw [head?_append_of_ne_nil cs0 rest_cs hne0]
    exact treeWF_first store hh c0 first (some f1) cs0 hP

theorem childAtL_cons_succ (right : Nat) (s : SlotE) (rest : List SlotE) (i : Nat) :
    childAtL right (s :: rest) (i + 1) = childAtL right rest i := by
  unfold childAtL
  simp only [List.length_cons, List.getElem?_cons_succ]
  rcases eq_or_ne i rest.length with rfl | hne
  · rw [if_pos rfl, if_pos rfl]
  · rw [if_neg (by omega), if_neg hne]

/-- Locate the child a branch routes to: decompose the contents around
the chosen child's chunk, with every earlier key `< k`, every later key
`> k`, and the continuation data needed to resolve a leaf-chain hop. -/
theorem childrenLocate (store : List Node) (hh : Nat) (k : List Nat) :
    ∀ slots right first nxt contents lo idx,
      ChildrenWF (TreeWF store hh) slots right first nxt contents lo →
      idx ≤ slots.length →
      (∀ j, j < idx → lexCmp (slotKeyAt slots j) k ≠ .gt) →
      (idx < slots.length → lexCmp k (slotKeyAt slots idx) = .lt) →
      ∃ pre cs post cfirst cnxt,
        contents = pre ++ cs ++ post ∧
        TreeWF store hh (childAtL right slots idx) cfirst cnxt cs ∧
        cs ≠ [] ∧
        (∀ pr ∈ pre, lexCmp pr.1 k = .lt) ∧
        (∀ pr ∈ post, lexCmp k pr.1 = .lt) ∧
        ((post = [] ∧ cnxt = nxt) ∨
         (post ≠ [] ∧ ∃ np, cnxt = some np ∧
            iterGet store (np, 0) = post.head?)) := by
  intro slots
  induction slots with
  | nil =>
    intro right first nxt contents lo idx h hidx _ _
    obtain ⟨hne, hge, hP⟩ := h
    have hidx0 : idx = 0 := by simpa using hidx
    subst hidx0
    exact ⟨[], contents, [], first, nxt, by simp, hP, hne,
      fun pr hpr => absurd hpr (List.not_mem_nil pr),
      fun pr hpr => absurd hpr (List.not_mem_nil pr), Or.inl ⟨rfl, rfl⟩⟩
  | cons s rest ih =>
    intro right first nxt contents lo idx h hidx hbef hat
    obtain ⟨sk, c0⟩ := s
    obtain ⟨cs0, rest_cs, f1, hceq, hne0, hge0, hlt0, hP, hrest⟩ := h
    cases idx with
    | zero =>
      have hk_sk : lexCmp k sk = .lt := by
        have := hat (by simp)
        rwa [slotKeyAt_cons_zero] at this
      have hrest_ge : keysGEo rest_cs (some sk) := childrenKeysGE _ _ _ _ _ _ hrest
      have hrest_ne : rest_cs ≠ [] := childrenNonempty _ _ _ _ _ _ hrest
      have hchild : childAtL right ((sk, c0) :: rest) 0 = c0 := by
        unfold childAtL
        rw [if_neg (by simp), List.getElem?_cons_zero]
        rfl
      refine ⟨[], cs0, rest_cs, first, some f1, by simpa using hceq,
        by rw [hchild]; exact hP, hne0,
        fun pr hpr => absurd hpr (List.not_mem_nil pr), ?_,
        Or.inr ⟨hrest_ne, f1, rfl, childrenFirst store hh _ _ _ _ _ _ hrest⟩⟩
      intro pr hpr
      have := hrest_ge pr hpr
      exact lexCmp_lt_ge_trans hk_sk this
    | succ i =>
      have hsk_le : lexCmp sk k ≠ .gt := by
        have := hbef 0 (by omega)
        rwa [slotKeyAt_cons_zero] at this
      obtain ⟨pre', cs, post, cfirst, cnxt, hdec, hwf, hcsne, hpre, hpost, hcont⟩ :=
        ih right f1 nxt rest_cs (some sk) i hrest (by simpa using hidx)
          (fun j hj => by
            have := hbef (j + 1) (by omega)
            rwa [slotKeyAt_cons_succ] at this)
          (fun hi => by
            have := hat (by simpa using hi)
            rwa [slotKeyAt_cons_succ] at this)
      refine ⟨cs0 ++ pre', cs, post, cfirst, cnxt, ?_,
        by rw [childAtL_cons_succ]; exact hwf, hcsne, ?_, hpost, hcont⟩
      · rw [hceq, hdec]
        simp
      · intro pr hpr
        rcases List.mem_append.mp hpr with hm | hm
        · exact lexCmp_lt_le_trans (hlt0 pr hm) hsk_le
        · exact hpre pr hm

theorem find?_some_index {α : Type} (l : List α) (p : α → Bool) (x : α)
    (h : l.find? p = some x) :
    ∃ i : Nat, l[i]? = some x ∧ p x = true ∧
      ∀ j : Nat, j < i → ∀ y, l[j]? = some y → p y = false := by
  induction l generalizing x with
  | nil => cases h
  | cons a t ih =>
    rw [List.find?_cons] at h
    cases hp : p a with
    | true =>
      rw [hp] at h
      injection h with h
      subst h
      refine ⟨0, ?_, hp, ?_⟩
      · rw [List.getElem?_cons_zero]
      · intro j hj y hy
        exact absurd hj (by omega)
    | false =>
      rw [hp] at h
      obtain ⟨i, hi, hpx, hbef⟩ := ih x h
      refine ⟨i + 1, by rw [List.getElem?_cons_succ]; exact hi, hpx, ?_⟩
      intro j hj y hy
      cases j with
      | zero =>
        rw [List.getElem?_cons_zero] at hy
        injection hy with hy
        subst hy
        exact hp
      | succ j' =>
        rw [List.getElem?_cons_succ] at hy
        exact hbef j' (by omega) y hy

/-- Search with a key, relative to a subtree: the iterator lands on the
first pair with key `≥ k`, or hops to the leaf `nxt` when every key of
the subtree is `< k`. -/
theorem searchKeyWF (store : List Node) (k : List Nat) :
    ∀ h pid first nxt contents,
      TreeWF store h pid first nxt contents → sortedKV contents →
      ∃ it, searchGo store (h + 1) pid (.key k) = some it ∧
        ((∃ pr, storedSucc contents k = some pr ∧ iterGet store it = some pr) ∨
         (storedSucc contents k = none ∧
           ((nxt = none ∧ iterGet store it = none) ∨
            (∃ np, nxt = some np ∧ it = (np, 0))))) := by
  intro h
  induction h with
  | zero =>
    intro pid first nxt contents hwf hsort
    obtain ⟨prev, hp, hf⟩ := hwf
    obtain ⟨hsle, hsbef, hsat⟩ := leafSlotId_spec contents k hsort
    by_cases hsl : contents.length = leafSettleSlot contents k
    · -- every key < k: advance past the end
      have hnone : storedSucc contents k = none := by
        apply find?_eq_none_of_all
        intro x hx
        obtain ⟨i, hi⟩ := List.mem_iff_getElem?.mp hx
        have hilen : i < contents.length := by
          by_contra hc
          rw [List.getElem?_eq_none (by omega)] at hi
          cases hi
        have := hsbef i (by omega)
        unfold pairKeyAt at this
        rw [hi] at this
        simp only [Option.map_some', Option.getD_some] at this
        exact keyGE_false.mpr this
      cases nxt with
      | none =>
        refine ⟨(pid, leafSettleSlot contents k + 1), ?_, ?_⟩
        · simp only [searchGo, hp]
          rw [if_pos hsl]
        · refine Or.inr ⟨hnone, Or.inl ⟨rfl, ?_⟩⟩
          unfold iterGet
          rw [hp]
          exact List.getElem?_eq_none (by omega)
      | some np =>
        refine ⟨(np, 0), ?_, Or.inr ⟨hnone, Or.inr ⟨np, rfl, rfl⟩⟩⟩
        simp only [searchGo, hp]
        rw [if_pos hsl]
    · -- the slot is in range: it holds the least key ≥ k
      have hlt : leafSettleSlot contents k < contents.length := by omega
      have hsome : storedSucc contents k = contents[leafSettleSlot contents k]? := by
        apply find?_at_index contents _ (leafSettleSlot contents k) hlt
        · intro j hj x hx
          have := hsbef j hj
          unfold pairKeyAt at this
          rw [hx] at this
          simp only [Option.map_some', Option.getD_some] at this
          exact keyGE_false.mpr this
        · intro x hx
          have := hsat hlt
          unfold pairKeyAt at this
          rw [hx] at this
          simp only [Option.map_some', Option.getD_some] at this
          exact keyGE_true.mpr this
      refine ⟨(pid, leafSettleSlot contents k), ?_, ?_⟩
      · simp only [searchGo, hp]
        rw [if_neg hsl]
      · refine Or.inl ⟨contents[leafSettleSlot contents k], ?_, ?_⟩
        · rw [hsome]
          exact List.getElem?_eq_getElem hlt
        · unfold iterGet
          rw [hp]
          exact List.getElem?_eq_getElem hlt
  | succ h' ih =>
    intro pid first nxt contents hwf hsort
    obtain ⟨right, slots, hp, hne, hcw⟩ := hwf
    have hasc := (childrenSlotAsc _ _ _ _ _ _ hcw).2
    obtain ⟨hile, hibef, hiat⟩ := branchChildIdx_spec slots k hasc
    obtain ⟨pre, cs, post, cfirst, cnxt, hdec, hcwf, hcsne, hpre, hpost, hcont⟩ :=
      childrenLocate store h' k slots right first nxt contents none
        (branchChildIdx slots k) hcw hile hibef hiat
    rw [List.append_assoc] at hdec
    have hsort_cs : sortedKV cs := by
      rw [hdec] at hsort
      exact sortedKV_append_left _ _ (sortedKV_append_right _ _ hsort)
    obtain ⟨it, hrun, hres⟩ := ih (childAtL right slots (branchChildIdx slots k))
      cfirst cnxt cs hcwf hsort_cs
    have hpre_false : ∀ x ∈ pre, keyGE x.1 k = false :=
      fun x hx => keyGE_false.mpr (hpre x hx)
    refine ⟨it, ?_, ?_⟩
    · simp only [searchGo, hp]
      exact hrun
    · rcases hres with ⟨pr, hps, hget⟩ | ⟨hnone, hcont2⟩
      · refine Or.inl ⟨pr, ?_, hget⟩
        rw [hdec]
        unfold storedSucc
        rw [find?_append_none pre _ _ hpre_false]
        exact find?_append_some cs post _ pr hps
      · have hskip : storedSucc contents k = storedSucc post k := by
          rw [hdec]
          unfold storedSucc
          rw [find?_append_none pre _ _ hpre_false]
          exact find?_append_none cs post _ (find?_all_of_eq_none cs _ hnone)
        rcases hcont with ⟨hpe, hcn⟩ | ⟨hpne, np, hcn, hfirst⟩
        · subst hcn
          refine Or.inr ⟨?_, hcont2⟩
          rw [hskip, hpe]
          rfl
        · rcases hcont2 with ⟨hcnone, -⟩ | ⟨np', hcsome, hit⟩
          · rw [hcn] at hcnone
            cases hcnone
          · rw [hcn] at hcsome
            injection hcsome with hcsome
            subst hcsome
            cases hq : post with
            | nil => exact absurd hq hpne
            | cons q post' =>
              have hqgt : lexCmp k q.1 = .lt := hpost q (by rw [hq]; exact List.mem_cons_self q post')
              have hqge : keyGE q.1 k = true := by
                rw [keyGE_true]
                intro hc
                rw [(lexCmp_gt_iff_lt k q.1).mpr hc] at hqgt
                cases hqgt
              refine Or.inl ⟨q, ?_, ?_⟩
              · rw [hskip, hq]
                unfold storedSucc
                rw [List.find?_cons, hqge]
              · rw [hit, hfirst, hq]
                rfl

/-- Search from `Start`, relative to a subtree: the iterator lands on
the subtree's first pair, or hops to `nxt` when the subtree is empty. -/
theorem searchStartWF (store : List Node) :
    ∀ h pid first nxt contents,
      TreeWF store h pid first nxt contents →
      ∃ it, searchGo store (h + 1) pid .start = some it ∧
        ((∃ pr, contents.head? = some pr ∧ iterGet store it = some pr) ∨
         (contents = [] ∧
           ((nxt = none ∧ iterGet store it = none) ∨
            (∃ np, nxt = some np ∧ it = (np, 0))))) := by
  intro h
  induction h with
  | zero =>
    intro pid first nxt contents hwf
    obtain ⟨prev, hp, hf⟩ := hwf
    cases hc : contents with
    | nil =>
      cases nxt with
      | none =>
        refine ⟨(pid, 1), ?_, Or.inr ⟨rfl, Or.inl ⟨rfl, ?_⟩⟩⟩
        · subst hc
          simp only [searchGo, hp]
          rfl
        · subst hc
          unfold iterGet
          rw [hp]
          rfl
      | some np =>
        refine ⟨(np, 0), ?_, Or.inr ⟨rfl, Or.inr ⟨np, rfl, rfl⟩⟩⟩
        subst hc
        simp only [searchGo, hp]
        rfl
    | cons q rest =>
      refine ⟨(pid, 0), ?_, Or.inl ⟨q, rfl, ?_⟩⟩
      · subst hc
        simp only [searchGo, hp]
        rw [if_neg (by simp)]
      · subst hc
        unfold iterGet
        simp only [hp]
        rw [List.getElem?_cons_zero]
  | succ h' ih =>
    intro pid first nxt contents hwf
    obtain ⟨right, slots, hp, hne, hcw⟩ := hwf
    cases slots with
    | nil => exact absurd rfl hne
    | cons s rest =>
      obtain ⟨sk, c0⟩ := s
      obtain ⟨cs0, rest_cs, f1, hceq, hne0, -, -, hP, -⟩ := hcw
      obtain ⟨it, hrun, hres⟩ := ih c0 first (some f1) cs0 hP
      have hchild : childAtL right ((sk, c0) :: rest) 0 = c0 := by
        unfold childAtL
        rw [if_neg (by simp), List.getElem?_cons_zero]
        rfl
      refine ⟨it, ?_, ?_⟩
      · simp only [searchGo, hp]
        rw [hchild]
        exact hrun
      · rcases hres with ⟨pr, hh, hget⟩ | ⟨hemp, -⟩
        · refine Or.inl ⟨pr, ?_, hget⟩
          rw [hceq, head?_append_of_ne_nil cs0 rest_cs hne0]
          exact hh
        · exact absurd hemp hne0

end btree

/-- C3: on a well-formed tree of height `h` (root `root`, leftmost leaf
`first`, rightmost leaf unlinked, sorted contents), searching for a key
`k` yields an iterator whose first `get` is exactly the stored pair with
the smallest key `≥ k` (`storedSucc`), crossing into the next leaf via
`next_page_id` when `k` exceeds every key of the located leaf, and
`none` exactly when no stored key is `≥ k`; `Start` positions at the
minimum stored pair.  The last two conjuncts spell out that on the
sorted contents `storedSucc` is the least stored pair with key `≥ k`. -/
theorem c3_search_correct :
    ∀ store h root first contents,
      btree.TreeWF store h root first none contents →
      btree.sortedKV contents →
      (∀ k, ∃ it, btree.searchGo store (h + 1) root (.key k) = some it ∧
          btree.iterGet store it = btree.storedSucc contents k) ∧
      (∃ it, btree.searchGo store (h + 1) root .start = some it ∧
          btree.iterGet store it = contents.head?) ∧
      (∀ k pr, btree.storedSucc contents k = some pr →
          pr ∈ contents ∧ lexCmp pr.1 k ≠ .lt ∧
          ∀ qr ∈ contents, lexCmp qr.1 k ≠ .lt → lexCmp pr.1 qr.1 ≠ .gt) ∧
      (∀ k qr, btree.storedSucc contents k = none → qr ∈ contents →
          lexCmp qr.1 k = .lt) := by
  intro store h root first contents hwf hsort
  refine ⟨?_, ?_, ?_, ?_⟩
  · intro k
    obtain ⟨it, hrun, hres⟩ := btree.searchKeyWF store k h root first none contents hwf hsort
    refine ⟨it, hrun, ?_⟩
    rcases hres with ⟨pr, hps, hget⟩ | ⟨hnone, hrest⟩
    · rw [hget, hps]
    · rcases hrest with ⟨-, hget⟩ | ⟨np, hcontra, -⟩
      · rw [hget, hnone]
      · cases hcontra
  · obtain ⟨it, hrun, hres⟩ := btree.searchStartWF store h root first none contents hwf
    refine ⟨it, hrun, ?_⟩
    rcases hres with ⟨pr, hh, hget⟩ | ⟨hemp, hrest⟩
    · rw [hget, hh]
    · rcases hrest with ⟨-, hget⟩ | ⟨np, hcontra, -⟩
      · rw [hget, hemp]
        rfl
      · cases hcontra
  · intro k pr hps
    obtain ⟨i, hi, hpi, hbef⟩ := btree.find?_some_index contents _ pr hps
    have hilen : i < contents.length := by
      by_contra hc
      rw [List.getElem?_eq_none (by omega)] at hi
      cases hi
    refine ⟨List.mem_iff_getElem?.mpr ⟨i, hi⟩, btree.keyGE_true.mp hpi, ?_⟩
    intro qr hqr hqge
    obtain ⟨j, hj⟩ := List.mem_iff_getElem?.mp hqr
    have hjlen : j < contents.length := by
      by_contra hc
      rw [List.getElem?_eq_none (by omega)] at hj
      cases hj
    rcases Nat.lt_trichotomy j i with hji | hji | hji
    · have := hbef j hji qr hj
      rw [btree.keyGE_false] at this
      exact absurd this hqge
    · subst hji
      rw [hj] at hi
      injection hi with hi
      subst hi
      intro hc
      rw [(lexCmp_eq_eq _ _).mpr rfl] at hc
      cases hc
    · have := hsort i hilen j hjlen hji
      unfold btree.pairKeyAt at this
      rw [hi, hj] at this
      simp only [Option.map_some', Option.getD_some] at this
      rw [this]
      intro hc
      cases hc
  · intro k qr hnone hqr
    have := btree.find?_all_of_eq_none contents _ hnone qr hqr
    exact btree.keyGE_false.mp this

namespace btree

/-- When the key is already stored, `insert_internal` hits the
`Ok`-result of the leaf binary search and returns the `DuplicateKey`
error before any page is modified: the store comes back unchanged. -/
theorem insertInternalDup (store : List Node) (capL capB : Nat) (k v : List Nat) :
    ∀ h pid first nxt contents,
      TreeWF store h pid first nxt contents → sortedKV contents →
      (∃ v0, (k, v0) ∈ contents) →
      insertInternal capL capB store (h + 1) pid k v = some (store, .error ()) := by
  intro h
  induction h with
  | zero =>
    intro pid first nxt contents hwf hsort hmem
    obtain ⟨prev, hp, -⟩ := hwf
    obtain ⟨v0, hmem⟩ := hmem
    obtain ⟨j0, hj0⟩ := List.mem_iff_getElem?.mp hmem
    have hj0len : j0 < contents.length := by
      by_contra hc
      rw [List.getElem?_eq_none (by omega)] at hj0
      cases hj0
    have hfj0 : lexCmp (pairKeyAt contents j0) k = .eq := by
      unfold pairKeyAt
      rw [hj0]
      simp only [Option.map_some', Option.getD_some]
      exact (lexCmp_eq_eq k k).mpr rfl
    cases hq : leafSearchSlotId contents k with
    | ok i =>
      simp only [insertInternal, hp, hq]
    | error i =>
      exfalso
      obtain ⟨hlt, hgt⟩ := lexCmp_comparator_mono (pairKeyAt contents)
        contents.length k (fun i j hij hj => hsort i (by omega) j hj hij)
      have spec := binary_search_by_spec (fun i => lexCmp (pairKeyAt contents i) k)
        contents.length hlt hgt
      obtain ⟨hin, hbef, haft⟩ := spec.2 i hq
      rcases Nat.lt_or_ge j0 i with hji | hji
      · have : lexCmp (pairKeyAt contents j0) k = .lt := hbef j0 hji
        rw [hfj0] at this
        cases this
      · have : lexCmp (pairKeyAt contents j0) k = .gt := haft j0 hji hj0len
        rw [hfj0] at this
        cases this
  | succ h' ih =>
    intro pid first nxt contents hwf hsort hmem
    obtain ⟨right, slots, hp, hne, hcw⟩ := hwf
    have hasc := (childrenSlotAsc _ _ _ _ _ _ hcw).2
    obtain ⟨hile, hibef, hiat⟩ := branchChildIdx_spec slots k hasc
    obtain ⟨pre, cs, post, cfirst, cnxt, hdec, hcwf, hcsne, hpre, hpost, hcont⟩ :=
      childrenLocate store h' k slots right first nxt contents none
        (branchChildIdx slots k) hcw hile hibef hiat
    rw [List.append_assoc] at hdec
    have hsort_cs : sortedKV cs := by
      rw [hdec] at hsort
      exact sortedKV_append_left _ _ (sortedKV_append_right _ _ hsort)
    obtain ⟨v0, hmem⟩ := hmem
    have hmem_cs : (k, v0) ∈ cs := by
      rw [hdec] at hmem
      rcases List.mem_append.mp hmem with hm | hm
      · have := hpre (k, v0) hm
        rw [(lexCmp_eq_eq k k).mpr rfl] at this
        cases this
      · rcases List.mem_append.mp hm with hm' | hm'
        · exact hm'
        · have := hpost (k, v0) hm'
          rw [(lexCmp_eq_eq k k).mpr rfl] at this
          cases this
    have hchild := ih (childAtL right slots (branchChildIdx slots k))
      cfirst cnxt cs hcwf hsort_cs ⟨v0, hmem_cs⟩
    rw [insertInternal, hp]
    dsimp only
    rw [hchild]

end btree

/-- C5: inserting a key that the tree already contains returns the
`DuplicateKey` error and leaves the tree completely unchanged — the
store (all node pages and leaf links) is returned as-is, no page is
appended, and the meta root is untouched. -/
theorem c5_duplicate_key_unchanged :
    ∀ (t : btree.Tree) h first contents capL capB (k v v0 : List Nat),
      btree.TreeWF t.store h t.root first none contents →
      btree.sortedKV contents →
      (k, v0) ∈ contents →
      btree.btreeInsert capL capB (h + 1) t k v = some (.error t) := by
  intro t h first contents capL capB k v v0 hwf hsort hmem
  unfold btree.btreeInsert
  rw [btree.insertInternalDup t.store capL capB k v h t.root first none contents
    hwf hsort ⟨v0, hmem⟩]

def c5tree : btree.Tree := ⟨[.leaf none none [([2], [5])]], 0⟩

/-- C5 witness: a concrete single-leaf tree containing key `[2]`;
re-inserting `[2]` yields `DuplicateKey` with the tree unchanged. -/
theorem c5_duplicate_key_unchanged_witness :
    btree.TreeWF c5tree.store 0 c5tree.root 0 none [([2], [5])] ∧
    btree.sortedKV [([2], [5])] ∧
    btree.btreeInsert 64 64 1 c5tree [2] [9] = some (.error c5tree) :=
  ⟨⟨none, by decide, rfl⟩, by decide,
   c5_duplicate_key_unchanged c5tree 0 0 [([2], [5])] 64 64 [2] [9] [5]
     ⟨none, by decide, rfl⟩ (by decide) (by decide)⟩

def c3store : List btree.Node :=
  [.leaf none none [([1], [7]), ([3], [9])]]

/-- C3 witness: the search theorem applied to a concrete single-leaf
tree holding keys `[1]` and `[3]`. -/
theorem c3_search_correct_witness :
    btree.TreeWF c3store 0 0 0 none [([1], [7]), ([3], [9])] ∧
    btree.sortedKV [([1], [7]), ([3], [9])] ∧
    (∀ k, ∃ it, btree.searchGo c3store 1 0 (.key k) = some it ∧
        btree.iterGet c3store it = btree.storedSucc [([1], [7]), ([3], [9])] k) :=
  ⟨⟨none, by decide, rfl⟩, by decide,
   (c3_search_correct c3store 0 0 0 [([1], [7]), ([3], [9])]
      ⟨none, by decide, rfl⟩ (by decide)).1⟩

example : memcmpable.encode [] = [0, 0, 0, 0, 0, 0, 0, 0, 0] := by decide
example : memcmpable.encode [1, 2] = [1, 2, 0, 0, 0, 0, 0, 0, 2] := by decide
example : memcmpable.encode [1, 2, 3, 4, 5, 6, 7, 8] =
    [1, 2, 3, 4, 5, 6, 7, 8, 8] := by decide
example : memcmpable.encode [1, 2, 3, 4, 5, 6, 7, 8, 9] =
    [1, 2, 3, 4, 5, 6, 7, 8, 9, 9, 0, 0, 0, 0, 0, 0, 0, 1] := by decide
example : memcmpable.decode [1, 2, 0, 0, 0, 0, 0, 0, 2, 7] = some ([1, 2], [7]) := by decide
example : memcmpable.decode [1, 2, 3] = none := by decide
example : lexCmp [1, 2] [1, 2, 0] = .lt := by decide
example : memcmpable.encoded_size 8 = 18 := by decide

end Relly
